import Mathlib

/-!
Verification of the stonescriptdb-gateway schema-deployment engine.

This file gives a shallow embedding, in Lean, of the pure computational
cores of the Rust sources under src/: the checksum normalization pipeline
(src/schema/tables.rs, functions.rs, migration.rs), the type compatibility
matrix (src/schema/types.rs), the schema diff and migration gate
(src/schema/diff.rs, src/api/migrate_v2.rs), the topological sorters
(src/schema/dependency.rs, src/schema/tables.rs), the function signature
parser (src/schema/functions.rs), the post-migration verifier
(src/schema/verifier.rs), the seeder parser (src/schema/seeder.rs), and the
create/register control flow (src/api/database.rs, src/api/register.rs).

Strings are modelled as Lean strings and lists of characters; the character
class of the Rust regex class for whitespace and of str::trim is modelled
for the ASCII range, and Rust to_lowercase and to_uppercase are modelled as
per-character ASCII case maps, which agrees with Rust on the ASCII SQL
texts this system processes.  SHA-256 is kept abstract: every checksum is
modelled as an arbitrary function applied to the exact pre-hash text the
Rust code hashes, so checksum equality claims are proved for every hash
function, and checksum inequality claims are stated as the failure of the
universally quantified claim.
-/

namespace SSDB

/-- ASCII whitespace, as matched by the Rust regex whitespace class and by
str::trim on ASCII text: space, tab, newline, carriage return, vertical
tab, form feed. -/
def isWs (c : Char) : Bool :=
  c = ' ' || c = '\t' || c = '\n' || c = '\r' || c = Char.ofNat 11 || c = Char.ofNat 12

/-- Per-character ASCII lowercasing, modelling str::to_lowercase on ASCII. -/
def lowerStr (l : List Char) : List Char := l.map Char.toLower

/-- Per-character ASCII uppercasing, modelling str::to_uppercase on ASCII. -/
def upperStr (l : List Char) : List Char := l.map Char.toUpper

/-- String-level uppercasing. -/
def upperS (s : String) : String := ⟨upperStr s.data⟩

/-- String-level lowercasing. -/
def lowerS (s : String) : String := ⟨lowerStr s.data⟩

/-- Collapse every maximal whitespace run to a single space, modelling the
regex replace_all of one-or-more whitespace by one space.  The flag records
whether the previous character was part of a whitespace run. -/
def collapseWs : Bool → List Char → List Char
  | _, [] => []
  | prevWs, c :: r =>
    if isWs c then
      if prevWs then collapseWs true r else ' ' :: collapseWs true r
    else c :: collapseWs false r

/-- Collapse whitespace runs starting outside a run. -/
def collapse (l : List Char) : List Char := collapseWs false l

/-- Drop the trailing whitespace run, the right half of str::trim. -/
def trimRight : List Char → List Char
  | [] => []
  | c :: r => if (trimRight r).isEmpty && isWs c then [] else c :: trimRight r

/-- Drop leading and trailing whitespace, modelling str::trim. -/
def trim (l : List Char) : List Char := trimRight (l.dropWhile isWs)

/-- Accumulator-based whitespace tokenizer; the accumulator holds the
current word reversed. -/
def wordsAux : List Char → List Char → List (List Char)
  | [], acc => if acc.isEmpty then [] else [acc.reverse]
  | c :: r, acc =>
    if isWs c then
      if acc.isEmpty then wordsAux r [] else acc.reverse :: wordsAux r []
    else wordsAux r (c :: acc)

/-- Split into maximal whitespace-free words, modelling split_whitespace. -/
def wordsOf (l : List Char) : List (List Char) := wordsAux l []

/-- Join words with single spaces. -/
def unwordsSp : List (List Char) → List Char
  | [] => []
  | w :: ws => w ++ (if ws.isEmpty then [] else ' ' :: unwordsSp ws)

/-- State machine computing trim-after-collapse in one pass.  State 0: no
word seen yet; state 1: inside or directly after a word; state 2 and
above: after a word with pending whitespace. -/
def canonAux : Nat → List Char → List Char
  | _, [] => []
  | 0, c :: r => if isWs c then canonAux 0 r else c :: canonAux 1 r
  | 1, c :: r => if isWs c then canonAux 2 r else c :: canonAux 1 r
  | _+2, c :: r => if isWs c then canonAux 2 r else ' ' :: c :: canonAux 1 r

/-- Detect a double hyphen, the start of a single-line SQL comment. -/
def hasDD : List Char → Bool
  | [] => false
  | [_] => false
  | a :: b :: r => (a = '-' && b = '-') || hasDD (b :: r)

/-- Detect a slash-star, the start of a block SQL comment. -/
def hasSB : List Char → Bool
  | [] => false
  | [_] => false
  | a :: b :: r => (a = '/' && b = '*') || hasSB (b :: r)

/-- Detect a star-slash, the closer of a block SQL comment. -/
def hasCloser : List Char → Bool
  | [] => false
  | [_] => false
  | a :: b :: r => (a = '*' && b = '/') || hasCloser (b :: r)

/-- Drop through the first star-slash closer. -/
def dropCloser : List Char → List Char
  | [] => []
  | [_] => []
  | a :: b :: r => if a = '*' && b = '/' then r else dropCloser (b :: r)

/-- Strip single-line comments, modelling the regex replace_all of a double
hyphen followed by all characters up to, and not including, the next
newline.  The flag records being inside such a comment. -/
def stripLineAux : Bool → List Char → List Char
  | _, [] => []
  | true, c :: r => if c = '\n' then '\n' :: stripLineAux false r else stripLineAux true r
  | false, [c] => [c]
  | false, a :: b :: r =>
    if a = '-' && b = '-' then stripLineAux true r
    else a :: stripLineAux false (b :: r)

/-- Strip single-line SQL comments. -/
def stripLine (l : List Char) : List Char := stripLineAux false l

/-- Fuel-driven strip of block comments, modelling the non-greedy regex
replace_all of slash-star up to the earliest star-slash.  An unclosed
opener does not match the regex and is kept verbatim, together with the
rest of the text. -/
def stripBlockF : Nat → List Char → List Char
  | 0, l => l
  | _+1, [] => []
  | _+1, [c] => [c]
  | f+1, a :: b :: r =>
    if a = '/' && b = '*' then
      if hasCloser r then stripBlockF f (dropCloser r) else a :: b :: r
    else a :: stripBlockF f (b :: r)

/-- Strip block SQL comments. -/
def stripBlock (l : List Char) : List Char := stripBlockF l.length l

/-- Normalization used by compute_checksum in src/schema/tables.rs: strip
single-line comments, strip block comments, collapse whitespace runs to a
single space, trim, lowercase. -/
def tablesChecksumInput (l : List Char) : List Char :=
  lowerStr (trim (collapse (stripBlock (stripLine l))))

/-- Comment removal from FunctionDeployer::remove_comments in
src/schema/functions.rs: single-line comments first, then block comments. -/
def removeComments (l : List Char) : List Char := stripBlock (stripLine l)

/-- Normalization from FunctionDeployer::normalize_for_checksum in
src/schema/functions.rs: collapse whitespace, trim, lowercase. -/
def normalizeForChecksum (l : List Char) : List Char := lowerStr (trim (collapse l))

/-- Pre-hash text of the function body checksum as computed inside
FunctionDeployer::parse_signature, which strips comments before calling
compute_body_checksum. -/
def functionChecksumInput (l : List Char) : List Char :=
  normalizeForChecksum (removeComments l)

/-- Pre-hash text of compute_checksum in src/schema/migration.rs, which
hashes the raw file content with no normalization at all. -/
def migrationChecksumInput (l : List Char) : List Char := l

/-- Checksum of a table definition file: SHA-256, modelled by an arbitrary
function `hash`, of the normalized text. -/
def computeChecksumTables (hash : List Char → List Char) (content : List Char) : List Char :=
  hash (tablesChecksumInput content)

/-- Checksum of a function body: hash of the comment-stripped normalized
text. -/
def computeChecksumFunctions (hash : List Char → List Char) (content : List Char) : List Char :=
  hash (functionChecksumInput content)

/-- Checksum of a migration file: hash of the raw content. -/
def computeChecksumMigration (hash : List Char → List Char) (content : List Char) : List Char :=
  hash (migrationChecksumInput content)

/-- Texts related by this predicate differ only in whitespace runs
(each maximal whitespace run may be replaced by any other nonempty
whitespace sequence) and in letter case. -/
inductive WsCaseEquiv : List Char → List Char → Prop
  | nil : WsCaseEquiv [] []
  | ws {s t u v : List Char} : s ≠ [] → t ≠ [] → (∀ c ∈ s, isWs c = true) →
      (∀ c ∈ t, isWs c = true) → WsCaseEquiv u v → WsCaseEquiv (s ++ u) (t ++ v)
  | chr {c d : Char} {u v : List Char} : isWs c = false → isWs d = false →
      c.toLower = d.toLower → WsCaseEquiv u v → WsCaseEquiv (c :: u) (d :: v)

/-- Comment-marker-free texts: no double hyphen and no slash-star. -/
def noCommentMarkers (l : List Char) : Bool := !(hasDD l || hasSB l)

/-- Fuel-driven replace-all of a nonempty pattern, modelling
str::replace: scan left to right, replace each non-overlapping occurrence
and continue after the replacement. -/
def replaceAllF (pat rep : List Char) : Nat → List Char → List Char
  | 0, l => l
  | _+1, [] => []
  | f+1, c :: r =>
    if pat.isPrefixOf (c :: r) then rep ++ replaceAllF pat rep f (List.drop pat.length (c :: r))
    else c :: replaceAllF pat rep f r

/-- Replace-all wrapper with sufficient fuel. -/
def replaceAll (pat rep l : List Char) : List Char := replaceAllF pat rep l.length l

/-- Result of a type compatibility check, from src/schema/types.rs. -/
inductive TypeCompatibility : Type
  | Identical : TypeCompatibility
  | Safe : TypeCompatibility
  | DataLoss (reason : String) : TypeCompatibility
  | Incompatible (reason : String) : TypeCompatibility
deriving DecidableEq, Repr

/-- Predicate is_safe from src/schema/types.rs: Identical or Safe. -/
def TypeCompatibility.is_safe : TypeCompatibility → Bool
  | .Identical => true
  | .Safe => true
  | _ => false

/-- Discriminator for the DataLoss constructor. -/
def TypeCompatibility.isDataLoss : TypeCompatibility → Bool
  | .DataLoss _ => true
  | _ => false

/-- Discriminator for the Incompatible constructor. -/
def TypeCompatibility.isIncompatible : TypeCompatibility → Bool
  | .Incompatible _ => true
  | _ => false

/-- Alias replacement table of TypeChecker::normalize_type, applied in
source order after trim and uppercase. -/
def normalizeTypeReps : List (String × String) :=
  [("CHARACTER VARYING", "VARCHAR"), ("INT4", "INTEGER"), ("INT8", "BIGINT"),
   ("INT2", "SMALLINT"), ("FLOAT4", "REAL"), ("FLOAT8", "DOUBLE PRECISION"),
   ("BOOL", "BOOLEAN"), ("TIMESTAMP WITHOUT TIME ZONE", "TIMESTAMP"),
   ("TIMESTAMP WITH TIME ZONE", "TIMESTAMPTZ")]

/-- TypeChecker::normalize_type: trim, uppercase, then the chained
str::replace calls in source order. -/
def normalize_type (s : String) : String :=
  ⟨normalizeTypeReps.foldl (fun acc pr => replaceAll pr.1.data pr.2.data acc)
    (upperStr (trim s.data))⟩

/-- TypeChecker::extract_base_type: the text before the first opening
parenthesis, trimmed; the whole string when there is none. -/
def extract_base_type (s : String) : String :=
  if s.data.contains '(' then ⟨trim (s.data.takeWhile (fun c => c ≠ '('))⟩ else s

/-- Numeric value of a digit string. -/
def digitsToNat (ds : List Char) : Nat :=
  ds.foldl (fun n c => n * 10 + (c.toNat - '0'.toNat)) 0

/-- Try to parse one-or-more digits followed by a closing parenthesis at
the head of the text, the tail of the regex for a parenthesized length. -/
def lenTryAt (r : List Char) : Option Nat :=
  let ds := r.takeWhile Char.isDigit
  let r1 := r.dropWhile Char.isDigit
  if ds.isEmpty then none
  else match r1 with
    | ')' :: _ => some (digitsToNat ds)
    | _ => none

/-- TypeChecker::extract_length: the leftmost match of an opening
parenthesis, one-or-more digits, and a closing parenthesis. -/
def extract_length : List Char → Option Nat
  | [] => none
  | c :: r =>
    if c = '(' then
      match lenTryAt r with
      | some n => some n
      | none => extract_length r
    else extract_length r

/-- Try to parse digits, an optional comma with whitespace and digits, and
a closing parenthesis, the tail of the precision-scale regex of
check_numeric_change.  A missing scale group parses as zero. -/
def psTryAt (r : List Char) : Option (Nat × Nat) :=
  let ds := r.takeWhile Char.isDigit
  let r1 := r.dropWhile Char.isDigit
  if ds.isEmpty then none
  else match r1 with
    | ')' :: _ => some (digitsToNat ds, 0)
    | ',' :: r2 =>
      let r3 := r2.dropWhile isWs
      let ds2 := r3.takeWhile Char.isDigit
      let r4 := r3.dropWhile Char.isDigit
      if ds2.isEmpty then none
      else match r4 with
        | ')' :: _ => some (digitsToNat ds, digitsToNat ds2)
        | _ => none
    | _ => none

/-- Leftmost match of the precision-scale pattern. -/
def findPrecScale : List Char → Option (Nat × Nat)
  | [] => none
  | c :: r =>
    if c = '(' then
      match psTryAt r with
      | some v => some v
      | none => findPrecScale r
    else findPrecScale r

/-- String types recognised by check_varchar_change. -/
def isStringType (t : String) : Bool :=
  t = "VARCHAR" || t = "CHAR" || t = "CHARACTER"

/-- TypeChecker::check_varchar_change from src/schema/types.rs. -/
def check_varchar_change (fromN toN : String) : Option TypeCompatibility :=
  let fb := extract_base_type fromN
  let tb := extract_base_type toN
  if !(isStringType fb) || !(isStringType tb) then none
  else
    match extract_length fromN.data, extract_length toN.data with
    | some fl, some tl =>
      if fl ≤ tl then some .Safe
      else some (.DataLoss ("May truncate: reducing from " ++ toString fl ++ " to " ++
        toString tl ++ " characters"))
    | some _, none =>
      if tb = "VARCHAR" then some .Safe else none
    | none, some _ => some (.DataLoss "May truncate: adding length limit")
    | none, none => some .Safe

/-- TypeChecker::check_numeric_change from src/schema/types.rs. -/
def check_numeric_change (fromN toN : String) : Option TypeCompatibility :=
  let fb := extract_base_type fromN
  let tb := extract_base_type toN
  if fb ≠ "NUMERIC" && fb ≠ "DECIMAL" then none
  else if tb ≠ "NUMERIC" && tb ≠ "DECIMAL" then none
  else
    match findPrecScale fromN.data, findPrecScale toN.data with
    | some (fp, fs), some (tp, ts) =>
      if fp ≤ tp && fs ≤ ts then some .Safe
      else some (.DataLoss ("May lose precision: NUMERIC(" ++ toString fp ++ "," ++
        toString fs ++ ") to NUMERIC(" ++ toString tp ++ "," ++ toString ts ++ ")"))
    | some _, none => some .Safe
    | none, some _ => some (.DataLoss "May lose precision: adding precision limit")
    | none, none => some .Identical

/-- Safe widening table built in TypeChecker::new. -/
def safe_widenings (t : String) : Option (List String) :=
  match t with
  | "SMALLINT" => some ["INTEGER", "INT", "INT4", "BIGINT", "INT8", "NUMERIC", "DECIMAL",
      "REAL", "FLOAT4", "DOUBLE PRECISION", "FLOAT8"]
  | "INT2" => some ["INTEGER", "INT", "INT4", "BIGINT", "INT8", "NUMERIC", "DECIMAL",
      "REAL", "FLOAT4", "DOUBLE PRECISION", "FLOAT8"]
  | "INTEGER" => some ["BIGINT", "INT8", "NUMERIC", "DECIMAL", "DOUBLE PRECISION", "FLOAT8"]
  | "INT" => some ["BIGINT", "INT8", "NUMERIC", "DECIMAL", "DOUBLE PRECISION", "FLOAT8"]
  | "INT4" => some ["BIGINT", "INT8", "NUMERIC", "DECIMAL", "DOUBLE PRECISION", "FLOAT8"]
  | "BIGINT" => some ["NUMERIC", "DECIMAL"]
  | "INT8" => some ["NUMERIC", "DECIMAL"]
  | "CHAR" => some ["VARCHAR", "CHARACTER VARYING", "TEXT"]
  | "CHARACTER" => some ["VARCHAR", "CHARACTER VARYING", "TEXT"]
  | "VARCHAR" => some ["TEXT"]
  | "CHARACTER VARYING" => some ["TEXT"]
  | "REAL" => some ["DOUBLE PRECISION", "FLOAT8", "NUMERIC", "DECIMAL"]
  | "FLOAT4" => some ["DOUBLE PRECISION", "FLOAT8", "NUMERIC", "DECIMAL"]
  | "DOUBLE PRECISION" => some ["NUMERIC", "DECIMAL"]
  | "FLOAT8" => some ["NUMERIC", "DECIMAL"]
  | "DATE" => some ["TIMESTAMP", "TIMESTAMP WITHOUT TIME ZONE", "TIMESTAMPTZ",
      "TIMESTAMP WITH TIME ZONE"]
  | "TIMESTAMP" => some ["TIMESTAMPTZ", "TIMESTAMP WITH TIME ZONE"]
  | "TIMESTAMP WITHOUT TIME ZONE" => some ["TIMESTAMP WITH TIME ZONE", "TIMESTAMPTZ"]
  | "TIME" => some ["TIME WITH TIME ZONE", "TIMETZ"]
  | "TIME WITHOUT TIME ZONE" => some ["TIME WITH TIME ZONE", "TIMETZ"]
  | "BOOLEAN" => some ["INTEGER", "INT", "SMALLINT", "BIGINT"]
  | "BOOL" => some ["INTEGER", "INT", "SMALLINT", "BIGINT"]
  | "UUID" => some ["TEXT", "VARCHAR", "CHARACTER VARYING"]
  | "JSON" => some ["JSONB", "TEXT"]
  | "JSONB" => some ["JSON", "TEXT"]
  | "SERIAL" => some ["BIGSERIAL", "INTEGER", "BIGINT"]
  | "SMALLSERIAL" => some ["SERIAL", "BIGSERIAL", "SMALLINT", "INTEGER", "BIGINT"]
  | "BIGSERIAL" => some ["BIGINT", "NUMERIC"]
  | _ => none

/-- Data-loss narrowing table built in TypeChecker::new. -/
def dataloss_narrowings (f t : String) : Option String :=
  match f, t with
  | "BIGINT", "INTEGER" => some "May overflow: BIGINT max 9.2e18, INTEGER max 2.1e9"
  | "BIGINT", "INT" => some "May overflow: BIGINT max 9.2e18, INTEGER max 2.1e9"
  | "BIGINT", "SMALLINT" => some "May overflow: BIGINT max 9.2e18, SMALLINT max 32767"
  | "INTEGER", "SMALLINT" => some "May overflow: INTEGER max 2.1e9, SMALLINT max 32767"
  | "INT", "SMALLINT" => some "May overflow: INTEGER max 2.1e9, SMALLINT max 32767"
  | "INT4", "INT2" => some "May overflow: INTEGER max 2.1e9, SMALLINT max 32767"
  | "TEXT", "VARCHAR" => some "May truncate: TEXT has no limit, VARCHAR has limit"
  | "TEXT", "CHAR" => some "May truncate: TEXT has no limit, CHAR is fixed length"
  | "DOUBLE PRECISION", "REAL" => some "May lose precision: DOUBLE has 15 digits, REAL has 6"
  | "FLOAT8", "FLOAT4" => some "May lose precision: DOUBLE has 15 digits, REAL has 6"
  | "NUMERIC", "REAL" => some "May lose precision: NUMERIC is exact, REAL is approximate"
  | "NUMERIC", "DOUBLE PRECISION" =>
      some "May lose precision: NUMERIC is exact, DOUBLE is approximate"
  | "TIMESTAMP", "DATE" => some "Loses time component"
  | "TIMESTAMPTZ", "DATE" => some "Loses time and timezone"
  | "TIMESTAMP WITH TIME ZONE", "DATE" => some "Loses time and timezone"
  | "INTEGER", "BOOLEAN" =>
      some "Only 0 and 1 map to FALSE/TRUE, other values become TRUE"
  | "INT", "BOOLEAN" =>
      some "Only 0 and 1 map to FALSE/TRUE, other values become TRUE"
  | "TEXT", "UUID" => some "May fail: TEXT must contain valid UUID format"
  | "VARCHAR", "UUID" => some "May fail: VARCHAR must contain valid UUID format"
  | "TEXT", "JSON" => some "May fail: TEXT must contain valid JSON"
  | "TEXT", "JSONB" => some "May fail: TEXT must contain valid JSON"
  | _, _ => none

/-- Membership test of the to-type in a safe-widening target list. -/
def widensTo (fromBase toBase : String) : Bool :=
  match safe_widenings fromBase with
  | some targets => targets.contains toBase
  | none => false

/-- TypeChecker::check_compatibility from src/schema/types.rs: normalize
both sides; identical strings are Identical; then the varchar check, the
numeric check, the safe-widening table, the data-loss table, the reverse
safe-widening rule, and finally Incompatible. -/
def check_compatibility (fromType toType : String) : TypeCompatibility :=
  let fn := normalize_type fromType
  let tn := normalize_type toType
  if fn = tn then .Identical
  else
    match check_varchar_change fn tn with
    | some r => r
    | none =>
      match check_numeric_change fn tn with
      | some r => r
      | none =>
        let fb := extract_base_type fn
        let tb := extract_base_type tn
        if widensTo fb tb then .Safe
        else
          match dataloss_narrowings fb tb with
          | some reason => .DataLoss reason
          | none =>
            if widensTo tb fb then
              .DataLoss ("Narrowing from " ++ fromType ++ " to " ++ toType ++
                " may lose data")
            else
              .Incompatible ("Unknown type change: " ++ fromType ++ " -> " ++ toType ++
                ". Add to compatibility matrix if this should be allowed.")

/-- Column description from src/schema/diff.rs.  The two optional numeric
fields model the i32 columns read from information_schema. -/
structure ColumnSchema : Type where
  name : String
  data_type : String
  is_nullable : Bool
  column_default : Option String
  character_maximum_length : Option Int
  numeric_precision : Option Int
  numeric_scale : Option Int
deriving DecidableEq, Repr

/-- ColumnSchema::full_type from src/schema/diff.rs. -/
def ColumnSchema.full_type (c : ColumnSchema) : String :=
  let base := upperS c.data_type
  match c.character_maximum_length with
  | some len => base ++ "(" ++ toString len ++ ")"
  | none =>
    match c.numeric_precision, c.numeric_scale with
    | some p, some s =>
      if base = "NUMERIC" || base = "DECIMAL" then
        base ++ "(" ++ toString p ++ "," ++ toString s ++ ")"
      else base
    | _, _ => base

/-- Table description from src/schema/diff.rs.  The column HashMap is
modelled as an association list; the claims proved about diffs are
insensitive to the unspecified HashMap iteration order. -/
structure TableSchema : Type where
  name : String
  columns : List (String × ColumnSchema)
deriving DecidableEq, Repr

/-- Change kinds from src/schema/diff.rs. -/
inductive ChangeType : Type
  | CreateTable | DropTable | AddColumn | DropColumn
  | ModifyColumnType | ModifyColumnNullable | ModifyColumnDefault
deriving DecidableEq, Repr

/-- Debug rendering of a change kind, as produced by the Rust derive. -/
def ChangeType.debugStr : ChangeType → String
  | .CreateTable => "CreateTable"
  | .DropTable => "DropTable"
  | .AddColumn => "AddColumn"
  | .DropColumn => "DropColumn"
  | .ModifyColumnType => "ModifyColumnType"
  | .ModifyColumnNullable => "ModifyColumnNullable"
  | .ModifyColumnDefault => "ModifyColumnDefault"

/-- Change classification from src/schema/diff.rs. -/
inductive ChangeCompatibility : Type
  | Safe | DataLoss | Incompatible
deriving DecidableEq, Repr

/-- One schema change, from src/schema/diff.rs. -/
structure SchemaChange : Type where
  table : String
  change_type : ChangeType
  column : Option String
  from_type : Option String
  to_type : Option String
  compatibility : ChangeCompatibility
  reason : Option String
deriving DecidableEq, Repr

/-- Diff result from src/schema/diff.rs. -/
structure SchemaDiff : Type where
  safe_changes : List SchemaChange
  dataloss_changes : List SchemaChange
  incompatible_changes : List SchemaChange
deriving DecidableEq, Repr

/-- Empty diff, SchemaDiff::new. -/
def SchemaDiff.empty : SchemaDiff := ⟨[], [], []⟩

/-- SchemaDiff::is_safe: no data-loss and no incompatible changes. -/
def SchemaDiff.is_safe (d : SchemaDiff) : Bool :=
  d.dataloss_changes.isEmpty && d.incompatible_changes.isEmpty

/-- SchemaDiff::add_change: push onto the list selected by the change
compatibility. -/
def SchemaDiff.add_change (d : SchemaDiff) (c : SchemaChange) : SchemaDiff :=
  match c.compatibility with
  | .Safe => ⟨d.safe_changes ++ [c], d.dataloss_changes, d.incompatible_changes⟩
  | .DataLoss => ⟨d.safe_changes, d.dataloss_changes ++ [c], d.incompatible_changes⟩
  | .Incompatible => ⟨d.safe_changes, d.dataloss_changes, d.incompatible_changes ++ [c]⟩

/-- Changes produced by SchemaDiffChecker::diff_column_type for one column
present on both sides: nothing for Identical, otherwise one
ModifyColumnType change carrying the matrix verdict.  The check runs from
the current type to the desired type. -/
def diff_column_type (tableName colName : String) (desired current : ColumnSchema) :
    List SchemaChange :=
  let desiredType := desired.full_type
  let currentType := current.full_type
  match check_compatibility currentType desiredType with
  | .Identical => []
  | .Safe => [⟨tableName, .ModifyColumnType, some colName, some currentType,
      some desiredType, .Safe, none⟩]
  | .DataLoss reason => [⟨tableName, .ModifyColumnType, some colName, some currentType,
      some desiredType, .DataLoss, some reason⟩]
  | .Incompatible reason => [⟨tableName, .ModifyColumnType, some colName, some currentType,
      some desiredType, .Incompatible, some reason⟩]

/-- Changes produced by SchemaDiffChecker::diff_table_columns for one
table present on both sides: added columns, type and nullability changes
on shared columns, then dropped columns. -/
def diff_table_columns (tableName : String) (desired current : TableSchema) :
    List SchemaChange :=
  (desired.columns.flatMap fun pc =>
    let colName := pc.1
    let dc := pc.2
    match current.columns.lookup colName with
    | none =>
      let dataLoss := !dc.is_nullable && dc.column_default.isNone
      [⟨tableName, .AddColumn, some colName, none, some dc.full_type,
        (if dataLoss then .DataLoss else .Safe),
        (if dataLoss then
          some "Adding NOT NULL column without DEFAULT requires data migration"
        else none)⟩]
    | some cc =>
      diff_column_type tableName colName dc cc ++
      (if dc.is_nullable ≠ cc.is_nullable then
        [⟨tableName, .ModifyColumnNullable, some colName,
          some (if cc.is_nullable then "NULLABLE" else "NOT NULL"),
          some (if dc.is_nullable then "NULLABLE" else "NOT NULL"),
          (if !dc.is_nullable then .DataLoss else .Safe),
          (if !dc.is_nullable then some "May fail if NULL values exist" else none)⟩]
      else [])) ++
  ((current.columns.filter fun pc => (desired.columns.lookup pc.1).isNone).map fun pc =>
    ⟨tableName, .DropColumn, some pc.1, some pc.2.full_type, none, .DataLoss,
      some "Dropping column will delete all data in that column"⟩)

/-- Ordered change list of SchemaDiffChecker::diff_schemas: new and
modified tables in desired-map order, then dropped tables in current-map
order. -/
def diff_schemas_changes (desired current : List (String × TableSchema)) :
    List SchemaChange :=
  (desired.flatMap fun pt =>
    match current.lookup pt.1 with
    | none => [⟨pt.1, .CreateTable, none, none, none, .Safe, none⟩]
    | some ct => diff_table_columns pt.1 pt.2 ct) ++
  ((current.filter fun pt => (desired.lookup pt.1).isNone).map fun pt =>
    ⟨pt.1, .DropTable, none, none, none, .DataLoss,
      some "Dropping table will delete all data"⟩)

/-- SchemaDiffChecker::diff_schemas: fold every change through add_change
into the categorised diff. -/
def diff_schemas (desired current : List (String × TableSchema)) : SchemaDiff :=
  (diff_schemas_changes desired current).foldl SchemaDiff.add_change SchemaDiff.empty

/-- Error variants of src/error.rs used by the embedded operations. -/
inductive GatewayError : Type
  | DatabaseNotFound (platform : String) (tenant_id : Option String)
  | DatabaseAlreadyExists (database : String)
  | MigrationFailed (database migration cause : String)
  | FunctionDeployFailed (database function cause : String)
  | QueryFailed (database function cause : String)
  | ExtensionInstallFailed (database extension cause : String)
  | SchemaExtractionFailed (cause : String)
  | ConnectionFailed (database cause : String)
  | InvalidRequest (message : String)
deriving DecidableEq, Repr

/-- Blocked-migration reason line for one change, as formatted inside
SchemaDiffChecker::validate_migration. -/
def blockedReasonLine (fallback : String) (c : SchemaChange) : String :=
  c.change_type.debugStr ++ " " ++ c.table ++ "." ++ (c.column.getD "*") ++ ": " ++
    (c.reason.getD fallback)

/-- Join strings with a separator. -/
def joinSep (sep : String) : List String → String
  | [] => ""
  | [s] => s
  | s :: r => s ++ sep ++ joinSep sep r

/-- Cause text of the MigrationFailed error raised by
SchemaDiffChecker::validate_migration when the diff is blocked. -/
def blockedCause (diff : SchemaDiff) : String :=
  let reasons := diff.dataloss_changes.map (blockedReasonLine "potential data loss") ++
    diff.incompatible_changes.map (blockedReasonLine "incompatible types")
  "Schema changes blocked due to potential data loss. " ++ toString reasons.length ++
    " issues found:\n  - " ++ joinSep "\n  - " reasons ++
    "\n\nUse force=true to proceed anyway."

/-- Decision core of SchemaDiffChecker::validate_migration: with an empty
desired table set, validation is skipped and an empty diff returned;
otherwise the diff of desired against current is computed and, when it is
not safe and force is false, a MigrationFailed error is returned.  The
desired set stands for the parse of the tables directory and the current
set for the information_schema query. -/
def validate_migration (database : String) (desired current : List (String × TableSchema))
    (force : Bool) : Except GatewayError SchemaDiff :=
  if desired.isEmpty then .ok SchemaDiff.empty
  else
    let diff := diff_schemas desired current
    if !diff.is_safe && !force then
      .error (.MigrationFailed database "schema validation" (blockedCause diff))
    else .ok diff

/-- Per-database input of the migrate loop: the database name, its live
schema, and the number of unapplied migration files that run_migrations
would batch-execute against it. -/
structure MigrateDbInput : Type where
  name : String
  current : List (String × TableSchema)
  pendingMigrations : Nat
deriving Repr

/-- Control flow of migrate_schema_v2 from src/api/migrate_v2.rs, reduced
to the diff gate and the migration runner: the gate runs once, against the
first database, before any run_migrations call; a gate error aborts the
whole loop.  The result pairs the error, when one occurred, with the total
number of migrations issued before returning.  Function redeployment and
verification, which follow the migration runs, are outside this model. -/
def migrate_schema_v2 (desired : List (String × TableSchema))
    (dbs : List MigrateDbInput) (force : Bool) : Option GatewayError × Nat :=
  match dbs with
  | [] => (some (.InvalidRequest "No databases found"), 0)
  | d0 :: rest =>
    match validate_migration d0.name desired d0.current force with
    | .error e => (some e, 0)
    | .ok _ => (none, (d0 :: rest).foldl (fun acc d => acc + d.pendingMigrations) 0)

/-- Expected-found-missing triple used for extensions and types in
src/schema/verifier.rs. -/
structure NameVerification : Type where
  expected : List String
  found : List String
  missing : List String
deriving DecidableEq, Repr

/-- Missing computation shared by verify_extensions and verify_types: the
expected names not contained in the found names, in expected order. -/
def computeMissing (expected found : List String) : List String :=
  expected.filter fun e => !found.contains e

/-- SchemaVerifier::verify_extensions and verify_types, as a function of
the expected names, parsed from the schema files, and the found names,
listed from the database. -/
def verify_names (expected found : List String) : NameVerification :=
  ⟨expected, found, computeMissing expected found⟩

/-- Table mismatch entry from src/schema/verifier.rs. -/
structure TableMismatch : Type where
  table : String
  issue : String
deriving DecidableEq, Repr

/-- Table section of the verification report. -/
structure TableVerification : Type where
  expected : List String
  found : List String
  missing : List String
  mismatches : List TableMismatch
deriving DecidableEq, Repr

/-- Issue text for one drifting change, as formatted in
SchemaVerifier::verify_tables. -/
def mismatchIssue (c : SchemaChange) : String :=
  match c.column with
  | some col => c.change_type.debugStr ++ " column '" ++ col ++ "': " ++
      (c.from_type.getD "-") ++ " -> " ++ (c.to_type.getD "-")
  | none => c.change_type.debugStr

/-- SchemaVerifier::verify_tables: expected names from the desired schema,
found names from the live schema, missing as the expected tables absent
from the live map, and mismatches from the data-loss and incompatible
entries of the diff. -/
def verify_tables (desired current : List (String × TableSchema)) : TableVerification :=
  let expected := desired.map Prod.fst
  let found := current.map Prod.fst
  let missing := expected.filter fun e => (current.lookup e).isNone
  let diff := diff_schemas desired current
  let mismatches := (diff.dataloss_changes ++ diff.incompatible_changes).map fun c =>
    (⟨c.table, mismatchIssue c⟩ : TableMismatch)
  ⟨expected, found, missing, mismatches⟩

/-- Validation record of one seeder, from src/schema/seeder.rs. -/
structure SeederValidation : Type where
  table : String
  expected : Nat
  found : Nat
  missing : List String
deriving DecidableEq, Repr

/-- Missing seeder entry of the verification report. -/
structure MissingSeeder : Type where
  table : String
  count : Nat
  keys : List String
deriving DecidableEq, Repr

/-- Decision core of SeederRunner::validate_seeders: the per-seeder
validations are computed against the database; when any seeder found fewer
records than expected the whole call returns a MigrationFailed error,
otherwise the validations are returned. -/
def validate_seeders (database : String) (validations : List SeederValidation) :
    Except GatewayError (List SeederValidation) :=
  if validations.any (fun v => v.found < v.expected) then
    .error (.MigrationFailed database "seeder validation" "Seeder validation failed")
  else .ok validations

/-- Seeder section of the verification report. -/
structure SeederVerification : Type where
  missing : List MissingSeeder
deriving DecidableEq, Repr

/-- SchemaVerifier::verify_seeders: on a successful validate_seeders the
shortfalls are collected, and on an error a single unknown entry is
recorded. -/
def verify_seeders (database : String) (validations : List SeederValidation) :
    SeederVerification :=
  match validate_seeders database validations with
  | .ok vs =>
    ⟨(vs.filter fun v => v.found < v.expected).map fun v =>
      ⟨v.table, v.expected - v.found, v.missing⟩⟩
  | .error _ => ⟨[⟨"unknown", 0, ["seeder validation failed"]⟩]⟩

/-- Full verification report from src/schema/verifier.rs. -/
structure VerificationResult : Type where
  passed : Bool
  extensions : NameVerification
  types : NameVerification
  tables : TableVerification
  seeders : SeederVerification
deriving DecidableEq, Repr

/-- SchemaVerifier::verify_schema as a function of its pure inputs: the
expected and found extension and type names, the desired and live table
schemas, and the seeder validations.  The passed flag starts true and is
cleared by each section that finds something missing or mismatched. -/
def verify_schema (database : String) (extExpected extFound typExpected typFound : List String)
    (desired current : List (String × TableSchema))
    (seederVals : List SeederValidation) : VerificationResult :=
  let ext := verify_names extExpected extFound
  let typ := verify_names typExpected typFound
  let tbl := verify_tables desired current
  let sed := verify_seeders database seederVals
  let passed := ext.missing.isEmpty && typ.missing.isEmpty &&
    (tbl.missing.isEmpty && tbl.mismatches.isEmpty) && sed.missing.isEmpty
  ⟨passed, ext, typ, tbl, sed⟩

/-- Parameter descriptor from src/schema/functions.rs. -/
structure FunctionParameter : Type where
  name : Option String
  data_type : String
  has_default : Bool
deriving DecidableEq, Repr

/-- Parsed function signature from src/schema/functions.rs. -/
structure FunctionSignature : Type where
  name : String
  parameters : List FunctionParameter
  return_type : String
  body_checksum : String
deriving DecidableEq, Repr

/-- FunctionSignature::drop_signature: the function name alone when there
are no parameters, otherwise the name followed by the comma-joined
parameter types. -/
def FunctionSignature.drop_signature (s : FunctionSignature) : String :=
  let paramTypes := s.parameters.map (fun p => p.data_type)
  if paramTypes.isEmpty then s.name
  else s.name ++ "(" ++ joinSep ", " paramTypes ++ ")"

/-- Substring test. -/
def isSubstring (pat : List Char) : List Char → Bool
  | [] => pat.isEmpty
  | c :: r => pat.isPrefixOf (c :: r) || isSubstring pat r

/-- Case-insensitive containment of the word DEFAULT, modelling the
uppercase-and-contains test of parse_single_parameter. -/
def hasDefaultWord (l : List Char) : Bool :=
  isSubstring "DEFAULT".data (upperStr l)

/-- Absence of newlines. -/
def noNl (l : List Char) : Bool := !(l.contains '\n')

/-- Case-insensitive test for the seven letters of DEFAULT at the head:
the first seven characters, uppercased, spell DEFAULT.  A shorter text
never matches because the lengths differ. -/
def startsDefaultCI (l : List Char) : Bool :=
  upperStr (l.take 7) = "DEFAULT".data

/-- Match test, at the head of the text, for the regex used to remove a
DEFAULT clause: one-or-more whitespace, DEFAULT case-insensitively,
one-or-more whitespace, then newline-free text to the end of the string.
The greedy whitespace after DEFAULT may absorb newlines, so the test
requires the text after that whitespace run to be newline-free. -/
def defaultMatchAt (l : List Char) : Bool :=
  match l with
  | [] => false
  | c :: _ =>
    isWs c &&
    (let rest := l.dropWhile isWs
     startsDefaultCI rest &&
     (let after := rest.drop 7
      (match after with
       | w :: _ => isWs w
       | [] => false) &&
      noNl (after.dropWhile isWs)))

/-- Truncation at the leftmost match of the DEFAULT-clause regex,
modelling Regex::replace with an empty replacement on the match that
extends to the end of the string. -/
def stripDefaultClause : List Char → List Char
  | [] => []
  | c :: r => if defaultMatchAt (c :: r) then [] else c :: stripDefaultClause r

/-- FunctionDeployer::parse_single_parameter from src/schema/functions.rs:
record whether DEFAULT occurs, strip the DEFAULT clause, split on
whitespace, then read the parameter as bare type, mode-name-type,
mode-type, or name-type. -/
def parse_single_parameter (param : String) : Option FunctionParameter :=
  let hasDef := hasDefaultWord param.data
  let cleaned := stripDefaultClause param.data
  let parts := wordsOf cleaned
  match parts with
  | [] => none
  | [t] => some ⟨none, ⟨upperStr t⟩, hasDef⟩
  | p0 :: p1 :: rest =>
    if upperStr p0 = "IN".data || upperStr p0 = "OUT".data || upperStr p0 = "INOUT".data then
      match rest with
      | [] => some ⟨none, ⟨upperStr (unwordsSp [p1])⟩, hasDef⟩
      | _ => some ⟨some ⟨lowerStr p1⟩, ⟨upperStr (unwordsSp rest)⟩, hasDef⟩
    else some ⟨some ⟨lowerStr p0⟩, ⟨upperStr (unwordsSp (p1 :: rest))⟩, hasDef⟩

/-- Parameter text assembled from an optional mode keyword, an optional
parameter name, type tokens, and an optional DEFAULT expression, all
separated by single spaces.  This generates the parameter shapes whose
parses the claims compare. -/
def renderParam (mode nm : Option String) (ts : List String) (dflt : Option String) :
    String :=
  ⟨unwordsSp ((mode.toList ++ nm.toList ++ ts).map String.data) ++
    (match dflt with
     | none => []
     | some e => " DEFAULT ".data ++ e.data)⟩

/-- Record parsed from one seeder value tuple, from src/schema/seeder.rs. -/
structure SeederRecord : Type where
  columns : List String
  values : List String
deriving DecidableEq, Repr

/-- Quote-aware state machine of SeederRunner::parse_value_tuple: outside
a string, a single or double quote opens one; inside, only the matching
quote closes it; a comma outside a string ends the current value, which is
trimmed and always pushed; the final value is pushed only when its trimmed
form is nonempty.  The accumulator holds the current value reversed. -/
def parseValueTupleAux : Bool → Char → List Char → List Char → List String
  | _, _, acc, [] =>
    if (trim acc.reverse).isEmpty then [] else [⟨trim acc.reverse⟩]
  | inString, sc, acc, c :: r =>
    if (c = Char.ofNat 39 || c = Char.ofNat 34) && !inString then
      parseValueTupleAux true c (c :: acc) r
    else if c = sc && inString then
      parseValueTupleAux false sc (c :: acc) r
    else if c = ',' && !inString then
      (⟨trim acc.reverse⟩ : String) :: parseValueTupleAux false sc [] r
    else parseValueTupleAux inString sc (c :: acc) r

/-- SeederRunner::parse_value_tuple. -/
def parse_value_tuple (tupleStr : String) : List String :=
  parseValueTupleAux false ' ' [] tupleStr.data

/-- Tuple contents found by the regex of SeederRunner::parse_values: the
leftmost non-overlapping matches of an opening parenthesis, one-or-more
non-closing-parenthesis characters, and a closing parenthesis.  The flag
is true inside a candidate tuple whose reversed contents sit in the
accumulator.  An empty candidate is not a regex match, and scanning
resumes at the closing parenthesis, which can itself never start a match,
hence scanning continues after it. -/
def extractTuplesAux : Bool → List Char → List Char → List (List Char)
  | false, _, [] => []
  | false, _, c :: r =>
    if c = '(' then extractTuplesAux true [] r else extractTuplesAux false [] r
  | true, _, [] => []
  | true, acc, c :: r =>
    if c = ')' then
      if acc.isEmpty then
        extractTuplesAux false [] r
      else acc.reverse :: extractTuplesAux false [] r
    else extractTuplesAux true (c :: acc) r

/-- Value tuples of a VALUES clause. -/
def extractTuples (valuesStr : List Char) : List (List Char) :=
  extractTuplesAux false [] valuesStr

/-- SeederRunner::parse_values: parse every tuple; a tuple whose parsed
value count equals the column count becomes a record, any other tuple is
dropped with only a warning logged. -/
def parse_values (columns : List String) (valuesStr : String) : List SeederRecord :=
  (extractTuples valuesStr.data).filterMap fun tup =>
    let values := parse_value_tuple ⟨tup⟩
    if values.length = columns.length then some ⟨columns, values⟩ else none

/-- Column list of the INSERT statement as parsed in
SeederRunner::parse_seeder: the captured column text split on commas, each
piece trimmed and lowercased. -/
def parseSeederColumns (colText : String) : List String :=
  (colText.split (fun c => c = ',')).map fun s => ⟨lowerStr (trim s.data)⟩

/-- Outcome oracle for the deployment steps of a create or register
request.  Each field is the result the corresponding sub-deployer returns
against the live cluster; a numeric payload counts deployed objects. -/
structure DeploySteps : Type where
  changelog : Except GatewayError Unit
  extensions : Except GatewayError Nat
  types : Except GatewayError Nat
  tables : Except GatewayError Nat
  functions : Except GatewayError Nat
  seeders : Except GatewayError Nat
deriving Repr

/-- Response payload of POST /database/create. -/
structure CreateDatabaseResponse : Type where
  database_name : String
  extensions_installed : Nat
  types_deployed : Nat
  tables_created : Nat
  functions_deployed : Nat
deriving DecidableEq, Repr

/-- Control flow of create_database from src/api/database.rs, with the
cluster state abstracted to the list of existing database names and the
deployment steps to their outcomes.  After the physical database is
created, every step result is propagated with the question-mark operator:
no failure branch drops the database, so the returned state keeps the new
name even on error. -/
def create_database (databases : List String) (platformRegistered schemaExists : Bool)
    (dbName : String) (steps : DeploySteps) :
    List String × Except GatewayError CreateDatabaseResponse :=
  if !platformRegistered then
    (databases, .error (.InvalidRequest "Platform is not registered. Register it first."))
  else if !schemaExists then
    (databases, .error (.InvalidRequest "Schema not found for platform. Register the schema first."))
  else if databases.contains dbName then
    (databases, .error (.DatabaseAlreadyExists dbName))
  else
    let created := databases ++ [dbName]
    match steps.changelog with
    | .error e => (created, .error e)
    | .ok _ =>
      match steps.extensions with
      | .error e => (created, .error e)
      | .ok ne =>
        match steps.types with
        | .error e => (created, .error e)
        | .ok nt =>
          match steps.tables with
          | .error e => (created, .error e)
          | .ok ntb =>
            match steps.functions with
            | .error e => (created, .error e)
            | .ok nf =>
              match steps.seeders with
              | .error e => (created, .error e)
              | .ok _ => (created, .ok ⟨dbName, ne, nt, ntb, nf⟩)

/-- Control flow of the legacy register_schema from src/api/register.rs:
the same pipeline, but the deployment block result is matched and any
failure drops the newly created database before the error is returned. -/
def register_schema (databases : List String) (dbName : String) (steps : DeploySteps) :
    List String × Except GatewayError CreateDatabaseResponse :=
  if databases.contains dbName then
    (databases, .error (.DatabaseAlreadyExists dbName))
  else
    let created := databases ++ [dbName]
    let deployment : Except GatewayError CreateDatabaseResponse :=
      match steps.changelog with
      | .error e => .error e
      | .ok _ =>
        match steps.extensions with
        | .error e => .error e
        | .ok ne =>
          match steps.types with
          | .error e => .error e
          | .ok nt =>
            match steps.tables with
            | .error e => .error e
            | .ok ntb =>
              match steps.functions with
              | .error e => .error e
              | .ok nf =>
                match steps.seeders with
                | .error e => .error e
                | .ok _ => .ok ⟨dbName, ne, nt, ntb, nf⟩
    match deployment with
    | .ok resp => (created, .ok resp)
    | .error e => (created.filter (fun d => d ≠ dbName), .error e)

/-- State of the Kahn loop shared by DependencyAnalyzer::topological_sort
and TableDeployer::order_by_dependencies: the emitted output so far, the
ready queue, and the current in-degree map. -/
structure KahnState (α : Type) : Type where
  emitted : List α
  queue : List α
  deg : α → Nat

/-- Ordered insertion into a descending list.  Both Rust loops keep their
ready queue sorted ascending and pop from the back; the model keeps the
queue sorted descending and pops from the front, which takes the same
element. -/
def insertDesc {α : Type} (le : α → α → Bool) (x : α) : List α → List α
  | [] => [x]
  | y :: r => if le x y then y :: insertDesc le x r else x :: y :: r

/-- Process the dependents of a popped node in list order: decrement the
in-degree of each, and push those that reach zero into the queue. -/
def procDeps {α : Type} [DecidableEq α] (le : α → α → Bool) :
    List α → List α → (α → Nat) → List α × (α → Nat)
  | [], q, d => (q, d)
  | x :: rest, q, d =>
    let dx := d x - 1
    let d' : α → Nat := fun y => if y = x then dx else d y
    if dx = 0 then procDeps le rest (insertDesc le x q) d'
    else procDeps le rest q d'

/-- Fuelled Kahn loop: pop the maximal ready node, emit it, process its
dependents, repeat until the queue is empty.  The fuel passed by `kahn`
provably exceeds the number of iterations, since every node enters the
queue at most once. -/
def kahnRun {α : Type} [DecidableEq α] (le : α → α → Bool) (adj : α → List α) :
    Nat → KahnState α → KahnState α
  | 0, s => s
  | fuel+1, s =>
    match s.queue with
    | [] => s
    | t :: q' =>
      let p := procDeps le (adj t) q' s.deg
      kahnRun le adj fuel ⟨s.emitted ++ [t], p.1, p.2⟩

/-- Reverse adjacency: the dependents of a node are all nodes that list it
among their dependencies, with multiplicity. -/
def adjOf {α : Type} [DecidableEq α] (nodes : List α) (deps : α → List α) (x : α) :
    List α :=
  nodes.flatMap fun y => List.replicate ((deps y).count x) y

/-- Kahn topological sort common to src/schema/dependency.rs and
src/schema/tables.rs: initial in-degrees are dependency counts, the
initial queue holds the zero-degree nodes sorted, and the loop emits ready
nodes until the queue is empty. -/
def kahn {α : Type} [DecidableEq α] (le : α → α → Bool) (nodes : List α)
    (deps : α → List α) : List α :=
  let d0 : α → Nat := fun x => (deps x).length
  let q0 := (nodes.filter fun x => d0 x == 0).foldl (fun q x => insertDesc le x q) []
  (kahnRun le (adjOf nodes deps) (nodes.length + 1) ⟨[], q0, d0⟩).emitted

/-- Dependency list of a node of the analyzer graph.  Graph keys are
unique, coming from a HashMap. -/
def graphDeps (graph : List (String × List String)) (n : String) : List String :=
  (graph.lookup n).getD []

/-- Node set collected by DependencyAnalyzer::topological_sort: every
graph key and every referenced dependency, known or not.  The HashSet is
modelled as a deduplicated list; its iteration order only feeds lists that
are re-sorted, so the claims are insensitive to it. -/
def graphNodes (graph : List (String × List String)) : List String :=
  (graph.flatMap fun p => p.1 :: p.2).dedup

/-- DependencyAnalyzer::topological_sort from src/schema/dependency.rs:
Kahn sort over the keys and all referenced names; an incomplete result
reports a circular dependency. -/
def topological_sort (graph : List (String × List String)) :
    Except String (List String) :=
  let nodes := graphNodes graph
  let order := kahn (fun a b => decide (a ≤ b)) nodes (graphDeps graph)
  if order.length = nodes.length then .ok order
  else .error "Circular dependency detected - cannot determine creation order"

/-- Table definition parsed from a tables file, from src/schema/tables.rs. -/
structure TableDefinition : Type where
  name : String
  file_path : String
  sql : String
  checksum : String
  depends_on : List String
deriving DecidableEq, Repr

/-- Name list of a table set. -/
def tableNames (tables : List TableDefinition) : List String := tables.map (·.name)

/-- Last index of a name, modelling the name-to-index HashMap built by
enumeration insertion, where a later duplicate overwrites an earlier one. -/
def nameToIdx (names : List String) (n : String) : Option Nat :=
  ((names.enum.filter fun p => p.2 == n).map Prod.fst).getLast?

/-- Dependency indices of a table: its referenced names resolved through
the index map, unresolved external references ignored, self references
ignored. -/
def depsIdx (tables : List TableDefinition) (i : Nat) : List Nat :=
  match tables.get? i with
  | none => []
  | some t => (t.depends_on.filterMap (nameToIdx (tableNames tables))).filter (· != i)

/-- Queue comparator of order_by_dependencies: indices compared by table
name. -/
def tblLe (tables : List TableDefinition) (i j : Nat) : Bool :=
  decide ((((tables.get? i).map (·.name)).getD "") ≤ (((tables.get? j).map (·.name)).getD ""))

/-- TableDeployer::order_by_dependencies from src/schema/tables.rs: Kahn
sort over the table indices with external and self dependencies ignored;
an incomplete result reports a circular dependency naming the remaining
tables. -/
def order_by_dependencies (tables : List TableDefinition) :
    Except String (List TableDefinition) :=
  if tables.isEmpty then .ok tables
  else
    let n := tables.length
    let idxOrder := kahn (tblLe tables) (List.range n) (depsIdx tables)
    if idxOrder.length = n then .ok (idxOrder.filterMap tables.get?)
    else .error ("Circular dependency detected in table definitions: " ++
      joinSep ", " (((List.range n).filter fun i => !(idxOrder.contains i)).filterMap
        fun i => (tables.get? i).map (·.name)))

/-- Loop invariant of the two Kahn sorts, relating a state to the node
set and dependency function: emitted and queued nodes are distinct known
nodes, the degree map counts the not-yet-emitted dependencies of every
node, queued and emitted nodes have degree zero, every degree-zero node
has been seen, and every emitted node appears after all its
dependencies. -/
def KahnInv {α : Type} [DecidableEq α] (nodes : List α) (deps : α → List α)
    (s : KahnState α) : Prop :=
  s.emitted.Nodup ∧
  (∀ x ∈ s.emitted, x ∈ nodes) ∧
  s.queue.Nodup ∧
  (∀ x ∈ s.queue, x ∈ nodes ∧ x ∉ s.emitted) ∧
  (∀ y ∈ nodes, s.deg y = (deps y).countP (fun r => decide (r ∉ s.emitted))) ∧
  (∀ x ∈ s.queue, s.deg x = 0) ∧
  (∀ x ∈ s.emitted, s.deg x = 0) ∧
  (∀ y ∈ nodes, s.deg y = 0 → y ∈ s.emitted ∨ y ∈ s.queue) ∧
  (∀ k y, s.emitted.get? k = some y → ∀ r ∈ deps y, r ∈ s.emitted.take k)

/-!
Theorems.  Helper lemmas come first, then one theorem per claim, each
with its witness or counterexample where required.
-/

/-- Emptiness of the shared missing computation means every expected name
was found. -/
theorem computeMissing_isEmpty (E F : List String) :
    (computeMissing E F).isEmpty = true ↔ ∀ e ∈ E, e ∈ F := by
  simp [computeMissing, List.isEmpty_iff, List.filter_eq_nil_iff, List.elem_iff]

/-- Emptiness of the missing-table list means every desired table exists
in the live map. -/
theorem missingTables_isEmpty (desired current : List (String × TableSchema)) :
    (((desired.map Prod.fst).filter fun e => (current.lookup e).isNone).isEmpty = true) ↔
      ∀ e ∈ desired.map Prod.fst, (current.lookup e).isSome := by
  simp [List.isEmpty_iff, List.filter_eq_nil_iff, Option.isNone_iff_eq_none,
    Option.isSome_iff_ne_none]

/-- Emptiness of the seeder section of the verification report means no
seeder found fewer records than expected. -/
theorem seederMissing_isEmpty (db : String) (vals : List SeederValidation) :
    ((verify_seeders db vals).missing.isEmpty = true) ↔
      ∀ v ∈ vals, v.expected ≤ v.found := by
  by_cases h : (vals.any fun v => v.found < v.expected) = true
  · simp only [verify_seeders, validate_seeders, h, if_true]
    simp only [List.any_eq_true, decide_eq_true_eq] at h
    obtain ⟨v, hv, hlt⟩ := h
    simp only [List.isEmpty_iff]
    constructor
    · intro hfalse
      exact absurd hfalse (by simp)
    · intro hall
      exact absurd (hall v hv) (by omega)
  · have hany : (vals.any fun v => v.found < v.expected) = false := by
      exact Bool.eq_false_iff.mpr h
    simp only [List.any_eq_true, decide_eq_true_eq] at h
    push_neg at h
    simp only [verify_seeders, validate_seeders, hany, Bool.false_eq_true, if_false,
      List.isEmpty_iff, List.map_eq_nil_iff, List.filter_eq_nil_iff, decide_eq_true_eq]
    constructor
    · intro _ v hv
      exact h v hv
    · intro _ v hv
      have := h v hv
      omega


/-- Emptiness of the table mismatch list means the diff has neither
data-loss nor incompatible changes. -/
theorem mismatches_isEmpty (desired current : List (String × TableSchema)) :
    ((verify_tables desired current).mismatches.isEmpty = true) ↔
      (diff_schemas desired current).dataloss_changes = [] ∧
      (diff_schemas desired current).incompatible_changes = [] := by
  simp [verify_tables, List.isEmpty_iff, List.map_eq_nil_iff, List.append_eq_nil]

/-- Claim C1.  The create-from-schema endpoint create_database in
src/api/database.rs propagates every deployment step failure with the
question-mark operator and never issues the drop-database rollback: on a
concrete request whose table deployment step fails after the physical
database was created, the operation returns the error while the new
database is still present in the cluster state.  The legacy
register_schema in src/api/register.rs, evaluated on the same failing
steps, does drop the database, which is the behaviour the claim describes. -/
theorem create_database_failure_keeps_database :
    create_database [] true true "app_main_prod"
      ⟨.ok (), .ok 0, .ok 0,
        .error (.SchemaExtractionFailed "Circular dependency detected in table definitions: a, b"),
        .ok 0, .ok 0⟩ =
      (["app_main_prod"],
        .error (.SchemaExtractionFailed "Circular dependency detected in table definitions: a, b")) ∧
    register_schema [] "app_main_prod"
      ⟨.ok (), .ok 0, .ok 0,
        .error (.SchemaExtractionFailed "Circular dependency detected in table definitions: a, b"),
        .ok 0, .ok 0⟩ =
      ([],
        .error (.SchemaExtractionFailed "Circular dependency detected in table definitions: a, b")) :=
  ⟨rfl, rfl⟩

/-- Claim C2, counterexample.  With an empty desired table set and a live
table, the diff between the desired set and the live schema contains a
DropTable change classified DataLoss, yet validate_migration skips
validation entirely and returns Ok, so the migrate operation is not
rejected as the claim states. -/
theorem validate_migration_empty_desired_not_rejected :
    validate_migration "db1" [] [("users", ⟨"users", []⟩)] false = .ok SchemaDiff.empty ∧
    (diff_schemas [] [("users", ⟨"users", []⟩)]).dataloss_changes ≠ [] :=
  ⟨rfl, by decide⟩

/-- Claim C2, amended.  For a migrate run whose desired table set is
nonempty, the gate of validate_migration rejects with a MigrationFailed
error exactly when the diff holds a DataLoss or Incompatible change and
force is false, in which case the migrate loop returns that error having
issued zero migrations; when the diff is safe or force is true the gate
returns the diff and lets the migration proceed. -/
theorem validate_migration_gate (db : String)
    (desired current : List (String × TableSchema)) (force : Bool)
    (hne : desired ≠ []) :
    ((diff_schemas desired current).is_safe = false → force = false →
      validate_migration db desired current force =
        .error (.MigrationFailed db "schema validation"
          (blockedCause (diff_schemas desired current)))) ∧
    ((diff_schemas desired current).is_safe = true ∨ force = true →
      validate_migration db desired current force = .ok (diff_schemas desired current)) ∧
    ((diff_schemas desired current).is_safe = false → force = false →
      ∀ pend rest, migrate_schema_v2 desired (⟨db, current, pend⟩ :: rest) force =
        (some (.MigrationFailed db "schema validation"
          (blockedCause (diff_schemas desired current))), 0)) := by
  have hne' : desired.isEmpty = false := by
    cases desired with
    | nil => exact absurd rfl hne
    | cons a l => rfl
  refine ⟨?_, ?_, ?_⟩
  · intro hsafe hforce
    simp [validate_migration, hne', hsafe, hforce]
  · intro hok
    rcases hok with hsafe | hforce
    · simp [validate_migration, hne', hsafe]
    · simp [validate_migration, hne', hforce]
  · intro hsafe hforce pend rest
    have hv : validate_migration db desired current force =
        .error (.MigrationFailed db "schema validation"
          (blockedCause (diff_schemas desired current))) := by
      simp [validate_migration, hne', hsafe, hforce]
    simp [migrate_schema_v2, hv]

/-- Witness for the amended claim C2 at a concrete blocked migration: one
desired table, a live schema holding only a different table, force false. -/
theorem validate_migration_gate_witness :
    validate_migration "db" [("users", ⟨"users", []⟩)] [("old", ⟨"old", []⟩)] false =
      .error (.MigrationFailed "db" "schema validation"
        (blockedCause (diff_schemas [("users", ⟨"users", []⟩)] [("old", ⟨"old", []⟩)]))) :=
  (validate_migration_gate "db" [("users", ⟨"users", []⟩)] [("old", ⟨"old", []⟩)] false
    (by decide)).1 (by decide) rfl

/-- Claim C4, counterexample.  The JSON and JSONB types are classified
Safe in both directions, refuting the asymmetry conjunct, and REAL to
SMALLINT and SMALLINT to BOOL are both DataLoss while REAL to BOOL is
Incompatible, refuting closure of DataLoss under transitivity. -/
theorem check_compatibility_matrix_counterexample :
    (check_compatibility "JSON" "JSONB" = .Safe ∧
     check_compatibility "JSONB" "JSON" = .Safe ∧
     ¬ ((check_compatibility "JSONB" "JSON").isDataLoss = true ∨
        check_compatibility "JSONB" "JSON" = .Identical)) ∧
    ((check_compatibility "REAL" "SMALLINT").isDataLoss = true ∧
     (check_compatibility "SMALLINT" "BOOL").isDataLoss = true ∧
     (check_compatibility "REAL" "BOOL").isDataLoss = false) := by
  decide

/-- Claim C4, amended.  Of the three claimed algebraic laws of the type
matrix only the first holds: the check of any type string against itself
is Identical, because both sides normalize to the same string.  Mutually
safe pairs such as JSON and JSONB refute the asymmetry law, and the REAL,
SMALLINT, BOOL chain refutes transitivity of DataLoss. -/
theorem check_compatibility_self_identical (T : String) :
    check_compatibility T T = .Identical := by
  simp [check_compatibility]

/-- Claim C5.  The claim states that BOOLEAN to INTEGER is Safe and
INTEGER to BOOLEAN is DataLoss, matching the matrix entries and comments
in TypeChecker::new; but normalize_type rewrites every occurrence of BOOL
to BOOLEAN, so the input BOOLEAN itself becomes BOOLEANEAN, misses every
matrix entry, and both directions come out Incompatible.  The spelling
BOOL, which does normalize to BOOLEAN, shows the intended classification
the unreachable matrix entries encode. -/
theorem check_compatibility_boolean_integer_eval :
    normalize_type "BOOLEAN" = "BOOLEANEAN" ∧
    check_compatibility "BOOLEAN" "INTEGER" =
      .Incompatible "Unknown type change: BOOLEAN -> INTEGER. Add to compatibility matrix if this should be allowed." ∧
    check_compatibility "INTEGER" "BOOLEAN" =
      .Incompatible "Unknown type change: INTEGER -> BOOLEAN. Add to compatibility matrix if this should be allowed." ∧
    check_compatibility "BOOL" "INTEGER" = .Safe ∧
    check_compatibility "INTEGER" "BOOL" =
      .DataLoss "Only 0 and 1 map to FALSE/TRUE, other values become TRUE" := by
  decide

/-- Claim C7, counterexample.  The dependency analyzer's topological sort
places referenced-but-undefined table names into the creation order: a
graph defining only todos, with a foreign key to the absent users, yields
a creation order that contains users. -/
theorem topological_sort_includes_unknown :
    topological_sort [("todos", ["users"])] = .ok ["users", "todos"] ∧
    "users" ∉ ([("todos", ["users"])].map Prod.fst) :=
  ⟨rfl, by decide⟩

/-- Claim C7, amended.  The table deployer treats unknown referenced
tables as external: every table definition in the output of
order_by_dependencies comes from the input set, so unknown referenced
names never appear in its creation order.  The dependency analyzer's
creation order, by contrast, does include referenced-but-undefined names,
as the counterexample shows. -/
theorem order_by_dependencies_output_from_input (tables : List TableDefinition)
    (out : List TableDefinition) (h : order_by_dependencies tables = .ok out) :
    ∀ t ∈ out, t ∈ tables ∧ t.name ∈ tableNames tables := by
  intro t ht
  have htm : t ∈ tables := by
    by_cases he : tables.isEmpty
    · simp only [order_by_dependencies, he, if_true] at h
      cases h
      exact ht
    · simp only [order_by_dependencies, he, Bool.false_eq_true, if_false] at h
      by_cases hlen : (kahn (tblLe tables) (List.range tables.length)
          (depsIdx tables)).length = tables.length
      · simp only [hlen, if_true] at h
        cases h
        obtain ⟨i, _, hget⟩ := List.mem_filterMap.mp ht
        exact List.get?_mem hget
      · simp only [hlen, if_false] at h
        cases h
  exact ⟨htm, List.mem_map_of_mem (·.name) htm⟩

/-- Witness for the amended claim C7 at a concrete table set with an
external reference. -/
theorem order_by_dependencies_output_from_input_witness :
    (⟨"posts", "posts.pssql", "sql", "abc", ["users"]⟩ : TableDefinition) ∈
      ([⟨"posts", "posts.pssql", "sql", "abc", ["users"]⟩] : List TableDefinition) ∧
    "posts" ∈ tableNames [⟨"posts", "posts.pssql", "sql", "abc", ["users"]⟩] := by
  have h := order_by_dependencies_output_from_input
    [⟨"posts", "posts.pssql", "sql", "abc", ["users"]⟩]
    [⟨"posts", "posts.pssql", "sql", "abc", ["users"]⟩] rfl
    ⟨"posts", "posts.pssql", "sql", "abc", ["users"]⟩ (by decide)
  exact ⟨h.1, h.2⟩

/-- Claim C9, counterexample.  First, a verification whose found
extension list holds a name never expected passes, so equal
expected-found sets are not necessary for a passing report; second, a
verification whose expected and found table name lists agree but whose
shared table drifted in a column type fails, so equal sets are not
sufficient either. -/
theorem verify_schema_sets_counterexample :
    ((verify_schema "db" [] ["uuid-ossp"] [] [] [] [] []).passed = true ∧
     (verify_schema "db" [] ["uuid-ossp"] [] [] [] [] []).extensions.found ≠
       (verify_schema "db" [] ["uuid-ossp"] [] [] [] [] []).extensions.expected) ∧
    ((verify_schema "db" [] [] [] []
        [("users", ⟨"users", [("id", ⟨"id", "integer", true, none, none, none, none⟩)]⟩)]
        [("users", ⟨"users", [("id", ⟨"id", "bigint", true, none, none, none, none⟩)]⟩)]
        []).passed = false ∧
     (verify_schema "db" [] [] [] []
        [("users", ⟨"users", [("id", ⟨"id", "integer", true, none, none, none, none⟩)]⟩)]
        [("users", ⟨"users", [("id", ⟨"id", "bigint", true, none, none, none, none⟩)]⟩)]
        []).tables.expected =
       (verify_schema "db" [] [] [] []
        [("users", ⟨"users", [("id", ⟨"id", "integer", true, none, none, none, none⟩)]⟩)]
        [("users", ⟨"users", [("id", ⟨"id", "bigint", true, none, none, none, none⟩)]⟩)]
        []).tables.found) := by
  decide

/-- Claim C9, amended.  The verification passes exactly when every
expected extension, type, and table is found, the table diff contains no
DataLoss or Incompatible change, and every seeder found at least its
expected record count; found names that were never expected do not fail
the verification. -/
theorem verify_schema_passed_iff (db : String)
    (extE extF typE typF : List String)
    (desired current : List (String × TableSchema))
    (seederVals : List SeederValidation) :
    (verify_schema db extE extF typE typF desired current seederVals).passed = true ↔
      ((∀ e ∈ extE, e ∈ extF) ∧ (∀ t ∈ typE, t ∈ typF) ∧
       (∀ e ∈ desired.map Prod.fst, (current.lookup e).isSome) ∧
       (diff_schemas desired current).dataloss_changes = [] ∧
       (diff_schemas desired current).incompatible_changes = [] ∧
       (∀ v ∈ seederVals, v.expected ≤ v.found)) := by
  have hext := computeMissing_isEmpty extE extF
  have htyp := computeMissing_isEmpty typE typF
  have htbl := missingTables_isEmpty desired current
  have hmis := mismatches_isEmpty desired current
  have hsed := seederMissing_isEmpty db seederVals
  simp only [verify_schema, verify_names, Bool.and_eq_true]
  constructor
  · rintro ⟨⟨⟨h1, h2⟩, h3, h4⟩, h5⟩
    exact ⟨hext.mp h1, htyp.mp h2, htbl.mp h3, (hmis.mp h4).1, (hmis.mp h4).2, hsed.mp h5⟩
  · rintro ⟨h1, h2, h3, h4, h5, h6⟩
    exact ⟨⟨⟨hext.mpr h1, htyp.mpr h2⟩, htbl.mpr h3, hmis.mpr ⟨h4, h5⟩⟩, hsed.mpr h6⟩

/-- Claim C10.  Every record produced by SeederRunner::parse_values
carries exactly as many values as the column list has columns, and its
column list is the statement's column list: tuples whose parsed value
count differs are omitted with only a warning logged.  The closed
conjunct shows a concrete seeder where the short middle tuple is dropped
from the records and hence from the expected record count. -/
theorem parse_values_record_lengths :
    (∀ (columns : List String) (valuesStr : String) (rec : SeederRecord),
      rec ∈ parse_values columns valuesStr →
        rec.values.length = columns.length ∧ rec.columns = columns) ∧
    parse_values ["id", "name"] "(1, 2), (7), (3, 4)" =
      [⟨["id", "name"], ["1", "2"]⟩, ⟨["id", "name"], ["3", "4"]⟩] := by
  constructor
  · intro columns valuesStr rec hrec
    obtain ⟨tup, _, hsome⟩ := List.mem_filterMap.mp hrec
    by_cases hlen : (parse_value_tuple ⟨tup⟩).length = columns.length
    · simp only [parse_values, hlen, if_true] at hsome
      cases hsome
      exact ⟨hlen, rfl⟩
    · simp only [parse_values, hlen, if_false] at hsome
      exact Option.noConfusion hsome
  · rfl

/-- Dropping leading whitespace erases the difference between the two
collapse modes. -/
theorem dropWhile_collapseWs (l : List Char) :
    (collapseWs true l).dropWhile isWs = (collapseWs false l).dropWhile isWs := by
  cases l with
  | nil => rfl
  | cons c r =>
    by_cases hc : isWs c = true
    · have h1 : collapseWs true (c :: r) = collapseWs true r := by simp [collapseWs, hc]
      have h2 : collapseWs false (c :: r) = ' ' :: collapseWs true r := by
        simp [collapseWs, hc]
      rw [h1, h2, List.dropWhile_cons_of_pos (by decide)]
    · have hc' : isWs c = false := by simpa using hc
      have h1 : collapseWs true (c :: r) = c :: collapseWs false r := by
        simp [collapseWs, hc']
      have h2 : collapseWs false (c :: r) = c :: collapseWs false r := by
        simp [collapseWs, hc']
      rw [h1, h2]

/-- Prepending a non-whitespace character commutes with trimRight. -/
theorem trimRight_cons_notWs (c : Char) (l : List Char) (hc : isWs c = false) :
    trimRight (c :: l) = c :: trimRight l := by
  simp [trimRight, hc]

/-- Joint characterization of trimRight after collapse by the canonical
state machine, in states one and two. -/
theorem trimRight_collapseWs (l : List Char) :
    trimRight (collapseWs false l) = canonAux 1 l ∧
    trimRight (' ' :: collapseWs true l) = canonAux 2 l := by
  induction l with
  | nil => constructor <;> rfl
  | cons c r ih =>
    by_cases hc : isWs c = true
    · constructor
      · show trimRight (collapseWs false (c :: r)) = canonAux 1 (c :: r)
        have h1 : collapseWs false (c :: r) = ' ' :: collapseWs true r := by
          simp [collapseWs, hc]
        have h2 : canonAux 1 (c :: r) = canonAux 2 r := by simp [canonAux, hc]
        rw [h1, h2, ih.2]
      · show trimRight (' ' :: collapseWs true (c :: r)) = canonAux 2 (c :: r)
        have h1 : collapseWs true (c :: r) = collapseWs true r := by
          simp [collapseWs, hc]
        have h2 : canonAux 2 (c :: r) = canonAux 2 r := by simp [canonAux, hc]
        rw [h1, h2, ih.2]
    · have hc' : isWs c = false := by simpa using hc
      constructor
      · show trimRight (collapseWs false (c :: r)) = canonAux 1 (c :: r)
        have h1 : collapseWs false (c :: r) = c :: collapseWs false r := by
          simp [collapseWs, hc']
        have h2 : canonAux 1 (c :: r) = c :: canonAux 1 r := by simp [canonAux, hc']
        rw [h1, h2, trimRight_cons_notWs c _ hc', ih.1]
      · show trimRight (' ' :: collapseWs true (c :: r)) = canonAux 2 (c :: r)
        have h1 : collapseWs true (c :: r) = c :: collapseWs false r := by
          simp [collapseWs, hc']
        have h2 : canonAux 2 (c :: r) = ' ' :: c :: canonAux 1 r := by
          simp [canonAux, hc']
        have h3 : trimRight (c :: collapseWs false r) = c :: trimRight (collapseWs false r) :=
          trimRight_cons_notWs c _ hc'
        have h4 : trimRight (' ' :: c :: collapseWs false r) =
            ' ' :: trimRight (c :: collapseWs false r) := by
          have h5 : trimRight (' ' :: c :: collapseWs false r) =
              if (trimRight (c :: collapseWs false r)).isEmpty && isWs ' ' then []
              else ' ' :: trimRight (c :: collapseWs false r) := rfl
          rw [h5, h3]
          simp
        rw [h1, h2, h4, h3, ih.1]

/-- Collapse followed by trim equals the canonical one-pass machine from
state zero. -/
theorem trim_collapse (l : List Char) : trim (collapse l) = canonAux 0 l := by
  induction l with
  | nil => rfl
  | cons c r ih =>
    by_cases hc : isWs c = true
    · have h1 : collapse (c :: r) = ' ' :: collapseWs true r := by
        simp [collapse, collapseWs, hc]
      have h2 : canonAux 0 (c :: r) = canonAux 0 r := by simp [canonAux, hc]
      have h3 : trim (collapse (c :: r)) = trim (collapse r) := by
        unfold trim
        rw [h1, List.dropWhile_cons_of_pos (by decide), dropWhile_collapseWs]
        rfl
      rw [h3, h2, ih]
    · have hc' : isWs c = false := by simpa using hc
      have h1 : collapse (c :: r) = c :: collapseWs false r := by
        simp [collapse, collapseWs, hc']
      have h2 : canonAux 0 (c :: r) = c :: canonAux 1 r := by simp [canonAux, hc']
      have h3 : trim (collapse (c :: r)) = c :: trimRight (collapseWs false r) := by
        unfold trim
        rw [h1, List.dropWhile_cons_of_neg (by simp [hc']), trimRight_cons_notWs c _ hc']
      rw [h3, h2, (trimRight_collapseWs r).1]

/-- States two and above of the canonical machine behave alike. -/
theorem canonAux_ge_two (n : Nat) (l : List Char) : canonAux (n + 2) l = canonAux 2 l := by
  cases l <;> rfl

/-- A whitespace run steps the canonical machine from state zero to state
zero and from states one and two to state two. -/
theorem canonAux_wsRun (s : List Char) (hs : ∀ c ∈ s, isWs c = true) (hne : s ≠ [])
    (u : List Char) :
    canonAux 0 (s ++ u) = canonAux 0 u ∧ canonAux 1 (s ++ u) = canonAux 2 u ∧
    canonAux 2 (s ++ u) = canonAux 2 u := by
  induction s with
  | nil => exact absurd rfl hne
  | cons c s' ih =>
    have hc : isWs c = true := hs c (by simp)
    cases s' with
    | nil =>
      refine ⟨?_, ?_, ?_⟩ <;> simp [canonAux, hc]
    | cons b s'' =>
      have ih' := ih (fun x hx => hs x (List.mem_cons_of_mem c hx)) (by simp)
      refine ⟨?_, ?_, ?_⟩
      · show canonAux 0 (c :: ((b :: s'') ++ u)) = canonAux 0 u
        simp only [canonAux, hc, if_true]
        exact ih'.1
      · show canonAux 1 (c :: ((b :: s'') ++ u)) = canonAux 2 u
        simp only [canonAux, hc, if_true]
        exact ih'.2.2
      · show canonAux 2 (c :: ((b :: s'') ++ u)) = canonAux 2 u
        simp only [canonAux, hc, if_true]
        exact ih'.2.2

/-- Texts differing only in whitespace runs and letter case have the same
lowercased canonical form, from every machine state. -/
theorem canonAux_wsCaseEquiv {u v : List Char} (h : WsCaseEquiv u v) :
    ∀ st, lowerStr (canonAux st u) = lowerStr (canonAux st v) := by
  induction h with
  | nil => intro st; rfl
  | ws hs ht hws hwt _ ih =>
    rename_i s t u' v' _
    intro st
    match st with
    | 0 => rw [(canonAux_wsRun s hws hs u').1, (canonAux_wsRun t hwt ht v').1]; exact ih 0
    | 1 => rw [(canonAux_wsRun s hws hs u').2.1, (canonAux_wsRun t hwt ht v').2.1]; exact ih 2
    | (n+2) =>
      rw [canonAux_ge_two n (s ++ u'), canonAux_ge_two n (t ++ v'),
        (canonAux_wsRun s hws hs u').2.2, (canonAux_wsRun t hwt ht v').2.2]
      exact ih 2
  | chr hc hd hlow _ ih =>
    rename_i c d u' v' _
    intro st
    match st with
    | 0 =>
      simp only [canonAux, hc, hd, Bool.false_eq_true, if_false, lowerStr, List.map_cons]
      rw [hlow]
      exact congrArg _ (ih 1)
    | 1 =>
      simp only [canonAux, hc, hd, Bool.false_eq_true, if_false, lowerStr, List.map_cons]
      rw [hlow]
      exact congrArg _ (ih 1)
    | (n+2) =>
      simp only [canonAux, hc, hd, Bool.false_eq_true, if_false, lowerStr, List.map_cons]
      rw [hlow]
      exact congrArg _ (congrArg _ (ih 1))

/-- Boolean or equal to false splits. -/
theorem hasDD_cons_false {a b : Char} {r : List Char} (h : hasDD (a :: b :: r) = false) :
    (a = '-' && b = '-') = false ∧ hasDD (b :: r) = false := by
  simp only [hasDD, Bool.or_eq_false_iff] at h
  exact h

/-- On a text with no double hyphen, single-line comment stripping is the
identity. -/
theorem stripLineAux_id (l : List Char) (h : hasDD l = false) :
    stripLineAux false l = l := by
  induction l with
  | nil => rfl
  | cons a tail ih =>
    cases tail with
    | nil => rfl
    | cons b r =>
      obtain ⟨h1, h2⟩ := hasDD_cons_false h
      simp only [stripLineAux, h1, Bool.false_eq_true, if_false]
      rw [ih h2]

/-- On a text with no slash-star, block comment stripping is the identity
for every fuel. -/
theorem stripBlockF_id (l : List Char) (h : hasSB l = false) :
    ∀ f, stripBlockF f l = l := by
  induction l with
  | nil => intro f; cases f <;> rfl
  | cons a tail ih =>
    intro f
    cases tail with
    | nil => cases f <;> rfl
    | cons b r =>
      cases f with
      | zero => rfl
      | succ f' =>
        have h' : (a = '/' && b = '*') = false ∧ hasSB (b :: r) = false := by
          simp only [hasSB, Bool.or_eq_false_iff] at h
          exact h
        simp only [stripBlockF, h'.1, Bool.false_eq_true, if_false]
        rw [ih h'.2 f']

/-- On comment-marker-free text the full tables normalization is the
lowercased canonical form. -/
theorem tablesChecksumInput_canon (l : List Char) (h : noCommentMarkers l = true) :
    tablesChecksumInput l = lowerStr (canonAux 0 l) := by
  have hdd : hasDD l = false ∧ hasSB l = false := by
    simp only [noCommentMarkers, Bool.not_eq_eq_eq_not, Bool.not_true,
      Bool.or_eq_false_iff] at h
    exact h
  unfold tablesChecksumInput
  rw [show stripLine l = l from stripLineAux_id l hdd.1]
  rw [show stripBlock l = l from stripBlockF_id l hdd.2 l.length]
  rw [trim_collapse]

/-- Claim C3, amended.  For the table-definition checksum and the
function-body checksum, any two comment-marker-free texts that differ
only in whitespace runs and letter case hash the same normalized text, so
their checksums agree for every hash function.  The migration-file
checksum hashes the raw content and is not invariant even under a case
change, and comment insertion can change even the normalized checksums,
as the counterexample records. -/
theorem checksum_normalization_invariance (hash : List Char → List Char)
    (u v : List Char) (hu : noCommentMarkers u = true) (hv : noCommentMarkers v = true)
    (h : WsCaseEquiv u v) :
    computeChecksumTables hash u = computeChecksumTables hash v ∧
    computeChecksumFunctions hash u = computeChecksumFunctions hash v := by
  have hcanon := canonAux_wsCaseEquiv h 0
  have htu := tablesChecksumInput_canon u hu
  have htv := tablesChecksumInput_canon v hv
  have hfun : functionChecksumInput u = functionChecksumInput v := by
    have h1 : functionChecksumInput u = tablesChecksumInput u := rfl
    have h2 : functionChecksumInput v = tablesChecksumInput v := rfl
    rw [h1, h2, htu, htv, hcanon]
  constructor
  · unfold computeChecksumTables
    rw [htu, htv, hcanon]
  · unfold computeChecksumFunctions
    rw [hfun]

/-- Claim C3, counterexample.  The migration checksum function performs no
normalization, so the claim fails already for a pure case change; and the
normalized checksums are not comment-insensitive: inserting the block
comment between a and b changes the normalized text from the two words to
a stray opener, because the single-line strip deletes the double hyphen
inside the block comment together with its closer. -/
theorem checksum_claim_counterexample :
    (¬ ∀ (hash : List Char → List Char) (u v : List Char), WsCaseEquiv u v →
        computeChecksumMigration hash u = computeChecksumMigration hash v) ∧
    tablesChecksumInput ("a /* -- */ b".data) = "a /*".data ∧
    tablesChecksumInput ("a b".data) = "a b".data := by
  refine ⟨?_, by decide, by decide⟩
  intro hall
  have hequiv : WsCaseEquiv ("A".data) ("a".data) :=
    .chr (by decide) (by decide) (by decide) .nil
  have := hall id "A".data "a".data hequiv
  simp only [computeChecksumMigration, migrationChecksumInput, id] at this
  exact absurd this (by decide)

/-- Witness for the amended claim C3 at a concrete pair of texts: a space
against a tab run, with a case change. -/
theorem checksum_normalization_invariance_witness :
    computeChecksumTables id ("a b".data) = computeChecksumTables id ("A \t B".data) ∧
    computeChecksumFunctions id ("a b".data) = computeChecksumFunctions id ("A \t B".data) :=
  checksum_normalization_invariance id ("a b".data) ("A \t B".data) (by decide) (by decide)
    (.chr (by decide) (by decide) (by decide)
      (@WsCaseEquiv.ws [' '] [' ', '\t', ' '] ['b'] ['B'] (by decide) (by decide)
        (by decide) (by decide)
        (.chr (by decide) (by decide) (by decide) .nil)))

/-- Newline-freedom survives dropping a prefix. -/
theorem noNl_dropWhile (l : List Char) (p : Char → Bool) (h : noNl l = true) :
    noNl (l.dropWhile p) = true := by
  have h2 : '\n' ∉ l := by
    intro hm
    have hc : l.contains '\n' = true := List.elem_iff.mpr hm
    rw [noNl, hc] at h
    exact absurd h (by decide)
  have h3 : '\n' ∉ l.dropWhile p := fun hm => h2 ((List.dropWhile_sublist p).mem hm)
  rw [noNl]
  cases hc : (l.dropWhile p).contains '\n'
  · rfl
  · exact absurd (List.elem_iff.mp hc) h3

/-- Pushing a whitespace-free word through the tokenizer moves it into the
accumulator. -/
theorem wordsAux_append_word (w : List Char) (hw : ∀ c ∈ w, isWs c = false) :
    ∀ (l acc : List Char), wordsAux (w ++ l) acc = wordsAux l (w.reverse ++ acc) := by
  induction w with
  | nil => intro l acc; rfl
  | cons c wt ih =>
    intro l acc
    have hc : isWs c = false := hw c (by simp)
    have hrest : ∀ x ∈ wt, isWs x = false := fun x hx => hw x (List.mem_cons_of_mem c hx)
    show wordsAux (c :: (wt ++ l)) acc = wordsAux l ((c :: wt).reverse ++ acc)
    simp only [wordsAux, hc, Bool.false_eq_true, if_false]
    rw [ih hrest l (c :: acc)]
    congr 1
    simp

/-- The tokenizer undoes single-space joining of nonempty whitespace-free
words. -/
theorem wordsOf_unwordsSp (ws : List (List Char))
    (h : ∀ w ∈ ws, w ≠ [] ∧ ∀ c ∈ w, isWs c = false) :
    wordsOf (unwordsSp ws) = ws := by
  induction ws with
  | nil => rfl
  | cons w ws' ih =>
    obtain ⟨hne, hchars⟩ := h w (by simp)
    show wordsAux (w ++ (if ws'.isEmpty then [] else ' ' :: unwordsSp ws')) [] = w :: ws'
    rw [wordsAux_append_word w hchars]
    cases ws' with
    | nil =>
      show wordsAux [] (w.reverse ++ []) = [w]
      have : (w.reverse ++ []).isEmpty = false := by
        cases hw : w.reverse with
        | nil => exact absurd (List.reverse_eq_nil_iff.mp hw) hne
        | cons a t => rfl
      simp only [wordsAux, this, Bool.false_eq_true, if_false]
      simp
    | cons w'' ws'' =>
      show wordsAux (' ' :: unwordsSp (w'' :: ws'')) (w.reverse ++ []) = w :: w'' :: ws''
      have hacc : (w.reverse ++ []).isEmpty = false := by
        cases hw : w.reverse with
        | nil => exact absurd (List.reverse_eq_nil_iff.mp hw) hne
        | cons a t => rfl
      simp only [wordsAux, hacc, Bool.false_eq_true, if_false, if_true, isWs]
      have htail := ih (fun x hx => h x (List.mem_cons_of_mem w hx))
      simp only [wordsOf] at htail
      rw [htail]
      simp

/-- The DEFAULT-clause stripper passes over a whitespace-free word. -/
theorem sdc_skip_word (w X : List Char) (hw : ∀ c ∈ w, isWs c = false) :
    stripDefaultClause (w ++ X) = w ++ stripDefaultClause X := by
  induction w with
  | nil => rfl
  | cons c wt ih =>
    have hc : isWs c = false := hw c (by simp)
    have hdm : defaultMatchAt (c :: (wt ++ X)) = false := by
      simp [defaultMatchAt, hc]
    show stripDefaultClause (c :: (wt ++ X)) = c :: wt ++ stripDefaultClause X
    simp only [stripDefaultClause, hdm, Bool.false_eq_true, if_false]
    rw [ih (fun x hx => hw x (List.mem_cons_of_mem c hx))]
    simp

/-- At a single-space separator followed by a whitespace-free word that is
not DEFAULT itself, the DEFAULT-clause regex does not match. -/
theorem defaultMatchAt_sep (w z : List Char) (hne : w ≠ [])
    (hw : ∀ c ∈ w, isWs c = false) (hd : upperStr w ≠ "DEFAULT".data)
    (hz : z = [] ∨ ∃ zz, z = ' ' :: zz) :
    defaultMatchAt (' ' :: (w ++ z)) = false := by
  obtain ⟨wh, wt, rfl⟩ : ∃ wh wt, w = wh :: wt := by
    cases w with
    | nil => exact absurd rfl hne
    | cons a t => exact ⟨a, t, rfl⟩
  have hwh : isWs wh = false := hw wh (by simp)
  have hdrop : ((' ' :: ((wh :: wt) ++ z)).dropWhile isWs) = (wh :: wt) ++ z := by
    rw [List.dropWhile_cons_of_pos (by decide)]
    exact List.dropWhile_cons_of_neg (by simp [hwh])
  have hlw : (wh :: wt).length = wt.length + 1 := List.length_cons wh wt
  by_cases hsd : startsDefaultCI ((wh :: wt) ++ z) = true
  · have heq : upperStr (((wh :: wt) ++ z).take 7) = "DEFAULT".data := by
      have h0 := hsd
      unfold startsDefaultCI at h0
      exact of_decide_eq_true h0
    have hlen7 : 7 ≤ ((wh :: wt) ++ z).length := by
      by_contra hshort
      push_neg at hshort
      have htk : ((wh :: wt) ++ z).take 7 = (wh :: wt) ++ z :=
        List.take_of_length_le (by omega)
      rw [htk] at heq
      have hl := congrArg List.length heq
      rw [show upperStr ((wh :: wt) ++ z) = ((wh :: wt) ++ z).map Char.toUpper from rfl,
        List.length_map] at hl
      have h7 : ("DEFAULT".data).length = 7 := by decide
      omega
    by_cases hwlen : 7 ≤ (wh :: wt).length
    · have hz0 : 7 - (wh :: wt).length = 0 := by omega
      have htk : ((wh :: wt) ++ z).take 7 = (wh :: wt).take 7 := by
        rw [List.take_append_eq_append_take, hz0]
        simp
      rcases Nat.lt_or_ge 7 (wh :: wt).length with hgt | hle
      · have hdrop7 : ((wh :: wt) ++ z).drop 7 = (wh :: wt).drop 7 ++ z := by
          rw [List.drop_append_eq_append_drop, hz0]
          simp
        have hdne : (wh :: wt).drop 7 ≠ [] := by
          simp only [ne_eq, List.drop_eq_nil_iff]
          omega
        obtain ⟨dh, dt, hdd⟩ : ∃ dh dt, (wh :: wt).drop 7 = dh :: dt := by
          cases hcase : (wh :: wt).drop 7 with
          | nil => exact absurd hcase hdne
          | cons a t => exact ⟨a, t, rfl⟩
        have hdh : isWs dh = false := by
          have : dh ∈ (wh :: wt) := (List.drop_sublist 7 (wh :: wt)).mem (by rw [hdd]; simp)
          exact hw dh this
        simp only [defaultMatchAt, hdrop, hdrop7, hdd]
        simp [hdh]
      · have htkall : (wh :: wt).take 7 = wh :: wt := List.take_of_length_le (by omega)
        rw [htk, htkall] at heq
        exact absurd heq hd
    · push_neg at hwlen
      have hzz : ∃ zz, z = ' ' :: zz := by
        rcases hz with hz0 | hz1
        · exfalso
          rw [hz0] at hlen7
          simp only [List.append_nil] at hlen7
          omega
        · exact hz1
      obtain ⟨zz, rfl⟩ := hzz
      exfalso
      have hsp : ' ' ∈ ((wh :: wt) ++ ' ' :: zz).take 7 := by
        rw [List.take_append_eq_append_take]
        have h1 : (wh :: wt).take 7 = wh :: wt := List.take_of_length_le (by omega)
        rw [h1]
        refine List.mem_append_right _ ?_
        cases hc7 : 7 - (wh :: wt).length with
        | zero => omega
        | succ k => simp
      have hsp' : ' ' ∈ upperStr (((wh :: wt) ++ ' ' :: zz).take 7) := by
        have hup : (' ' : Char).toUpper = ' ' := by decide
        rw [← hup]
        exact List.mem_map_of_mem Char.toUpper hsp
      rw [heq] at hsp'
      exact absurd hsp' (by decide)
  · rw [Bool.not_eq_true] at hsd
    rw [List.cons_append] at hsd
    simp only [defaultMatchAt, hdrop]
    simp [hsd]

/-- The DEFAULT-clause stripper is transparent on a single-space join of
nonempty, whitespace-free, non-DEFAULT words, for any continuation that is
empty or starts with a space. -/
theorem sdc_unwords (ws : List (List Char))
    (h : ∀ w ∈ ws, w ≠ [] ∧ (∀ c ∈ w, isWs c = false) ∧ upperStr w ≠ "DEFAULT".data)
    (tl : List Char) (htl : tl = [] ∨ ∃ zz, tl = ' ' :: zz) :
    stripDefaultClause (unwordsSp ws ++ tl) = unwordsSp ws ++ stripDefaultClause tl := by
  induction ws with
  | nil => rfl
  | cons w ws' ih =>
    obtain ⟨hne, hchars, hnd⟩ := h w (by simp)
    cases ws' with
    | nil =>
      show stripDefaultClause ((w ++ []) ++ tl) = (w ++ []) ++ stripDefaultClause tl
      rw [List.append_nil]
      exact sdc_skip_word w tl hchars
    | cons w'' ws'' =>
      obtain ⟨hne'', hchars'', hnd''⟩ := h w'' (by simp)
      have ihx := ih (fun x hx => h x (List.mem_cons_of_mem w hx))
      show stripDefaultClause ((w ++ ' ' :: unwordsSp (w'' :: ws'')) ++ tl) =
        (w ++ ' ' :: unwordsSp (w'' :: ws'')) ++ stripDefaultClause tl
      rw [List.append_assoc, sdc_skip_word w _ hchars]
      have hsep : stripDefaultClause (' ' :: (unwordsSp (w'' :: ws'') ++ tl)) =
          ' ' :: stripDefaultClause (unwordsSp (w'' :: ws'') ++ tl) := by
        have hshape : unwordsSp (w'' :: ws'') ++ tl =
            w'' ++ ((if ws''.isEmpty then [] else ' ' :: unwordsSp ws'') ++ tl) := by
          show (w'' ++ (if ws''.isEmpty then [] else ' ' :: unwordsSp ws'')) ++ tl = _
          rw [List.append_assoc]
        have hzshape : ((if ws''.isEmpty then [] else ' ' :: unwordsSp ws'') ++ tl) = [] ∨
            ∃ zz, ((if ws''.isEmpty then [] else ' ' :: unwordsSp ws'') ++ tl) =
              ' ' :: zz := by
          cases hemp : ws''.isEmpty
          · right
            simp only [hemp, Bool.false_eq_true, if_false]
            exact ⟨unwordsSp ws'' ++ tl, by simp⟩
          · simp only [hemp, if_true, List.nil_append]
            exact htl
        have hdm := defaultMatchAt_sep w''
          ((if ws''.isEmpty then [] else ' ' :: unwordsSp ws'') ++ tl)
          hne'' hchars'' hnd'' hzshape
        show stripDefaultClause (' ' :: (unwordsSp (w'' :: ws'') ++ tl)) = _
        rw [hshape]
        simp only [stripDefaultClause, hdm, Bool.false_eq_true, if_false]
      rw [List.cons_append, hsep, ihx]
      simp

/-- The DEFAULT-clause stripper removes a trailing DEFAULT clause with a
newline-free expression entirely. -/
theorem sdc_default_clause (e : List Char) (he : noNl e = true) :
    stripDefaultClause (" DEFAULT ".data ++ e) = [] := by
  have hnn : noNl (List.dropWhile isWs e) = true := noNl_dropWhile e isWs he
  have hdm : defaultMatchAt
      (' ' :: 'D' :: 'E' :: 'F' :: 'A' :: 'U' :: 'L' :: 'T' :: ' ' :: e) = true := by
    have hdrop : List.dropWhile isWs
        (' ' :: 'D' :: 'E' :: 'F' :: 'A' :: 'U' :: 'L' :: 'T' :: ' ' :: e) =
        'D' :: 'E' :: 'F' :: 'A' :: 'U' :: 'L' :: 'T' :: ' ' :: e := by
      rw [List.dropWhile_cons_of_pos (by decide)]
      exact List.dropWhile_cons_of_neg (by decide)
    have hsd : startsDefaultCI
        ('D' :: 'E' :: 'F' :: 'A' :: 'U' :: 'L' :: 'T' :: ' ' :: e) = true := rfl
    have hdw : List.dropWhile isWs (' ' :: e) = List.dropWhile isWs e :=
      List.dropWhile_cons_of_pos (by decide)
    simp only [defaultMatchAt, hdrop, hsd, List.drop_succ_cons, List.drop_zero, hdw, hnn]
    decide
  show stripDefaultClause
    (' ' :: ('D' :: 'E' :: 'F' :: 'A' :: 'U' :: 'L' :: 'T' :: ' ' :: e)) = []
  simp only [stripDefaultClause, hdm, if_true]

/-- Evaluation of parse_single_parameter when the cleaned text splits into
a non-keyword head word followed by at least one more word: the head is
read as the parameter name and the rest as the type. -/
theorem psp_eval_name (p : String) (p0 p1 : List Char) (rest : List (List Char))
    (hw : wordsOf (stripDefaultClause p.data) = p0 :: p1 :: rest)
    (h0 : upperStr p0 ≠ "IN".data) (h1 : upperStr p0 ≠ "OUT".data)
    (h2 : upperStr p0 ≠ "INOUT".data) :
    parse_single_parameter p =
      some ⟨some ⟨lowerStr p0⟩, ⟨upperStr (unwordsSp (p1 :: rest))⟩,
        hasDefaultWord p.data⟩ := by
  simp only [parse_single_parameter]
  rw [hw]
  simp [h0, h1, h2]

/-- Evaluation of parse_single_parameter when the cleaned text splits into
a mode keyword, a name word, and at least one type word. -/
theorem psp_eval_mode (p : String) (p0 p1 r0 : List Char) (rest : List (List Char))
    (hw : wordsOf (stripDefaultClause p.data) = p0 :: p1 :: r0 :: rest)
    (h0 : upperStr p0 = "IN".data ∨ upperStr p0 = "OUT".data ∨
      upperStr p0 = "INOUT".data) :
    parse_single_parameter p =
      some ⟨some ⟨lowerStr p1⟩, ⟨upperStr (unwordsSp (r0 :: rest))⟩,
        hasDefaultWord p.data⟩ := by
  simp only [parse_single_parameter]
  rw [hw]
  rcases h0 with h | h | h <;> simp [h]

/-- Cleaning and tokenizing a rendered parameter recovers its word list:
the optional DEFAULT clause is stripped entirely and the single-space
joins are undone. -/
theorem render_clean_words (ws : List (List Char)) (dflt : Option String)
    (h : ∀ w ∈ ws, w ≠ [] ∧ (∀ c ∈ w, isWs c = false) ∧ upperStr w ≠ "DEFAULT".data)
    (hd : ∀ e, dflt = some e → noNl e.data = true) :
    wordsOf (stripDefaultClause (unwordsSp ws ++
      (match dflt with | none => [] | some e => " DEFAULT ".data ++ e.data))) = ws := by
  have hwords : ∀ w ∈ ws, w ≠ [] ∧ ∀ c ∈ w, isWs c = false :=
    fun w hw => ⟨(h w hw).1, (h w hw).2.1⟩
  cases dflt with
  | none =>
    rw [sdc_unwords ws h [] (Or.inl rfl)]
    show wordsOf (unwordsSp ws ++ []) = ws
    rw [List.append_nil]
    exact wordsOf_unwordsSp ws hwords
  | some e =>
    have htl : (" DEFAULT ".data ++ e.data) = [] ∨
        ∃ zz, (" DEFAULT ".data ++ e.data) = ' ' :: zz :=
      Or.inr ⟨"DEFAULT ".data ++ e.data, rfl⟩
    rw [sdc_unwords ws h (" DEFAULT ".data ++ e.data) htl,
      sdc_default_clause e.data (hd e rfl), List.append_nil]
    exact wordsOf_unwordsSp ws hwords

/-- C8: drop_signature is a function of the function name and the ordered
parameter type sequence only.  First conjunct: two FunctionSignature values
with the same name and the same data_type sequence have equal drop
signatures.  Second conjunct: for a parameter rendered from an optional
IN/OUT/INOUT mode keyword, a parameter name, whitespace-free type tokens,
and an optional DEFAULT clause with a newline-free expression,
parse_single_parameter extracts a data_type that depends only on the type
tokens — the mode keyword, the name, and the DEFAULT clause never change
it. -/
theorem drop_signature_type_only :
    (∀ s1 s2 : FunctionSignature, s1.name = s2.name →
      s1.parameters.map (fun p => p.data_type) =
        s2.parameters.map (fun p => p.data_type) →
      s1.drop_signature = s2.drop_signature) ∧
    (∀ (m : Option String) (nm : String) (ts : List String) (dflt : Option String),
      (∀ x, m = some x → (x.data ≠ [] ∧ (∀ c ∈ x.data, isWs c = false) ∧
        upperStr x.data ≠ "DEFAULT".data) ∧
        (upperStr x.data = "IN".data ∨ upperStr x.data = "OUT".data ∨
          upperStr x.data = "INOUT".data)) →
      nm.data ≠ [] → (∀ c ∈ nm.data, isWs c = false) →
      upperStr nm.data ≠ "DEFAULT".data →
      upperStr nm.data ≠ "IN".data → upperStr nm.data ≠ "OUT".data →
      upperStr nm.data ≠ "INOUT".data →
      ts ≠ [] →
      (∀ t ∈ ts, t.data ≠ [] ∧ (∀ c ∈ t.data, isWs c = false) ∧
        upperStr t.data ≠ "DEFAULT".data) →
      (∀ e, dflt = some e → noNl e.data = true) →
      Option.map (fun q => q.data_type)
          (parse_single_parameter (renderParam m (some nm) ts dflt)) =
        some ⟨upperStr (unwordsSp (ts.map String.data))⟩) := by
  constructor
  · intro s1 s2 hn hp
    simp only [FunctionSignature.drop_signature]
    rw [hn, hp]
  · intro m nm ts dflt hm hnm1 hnm2 hnm3 hin hout hinout hts htok hd
    obtain ⟨t0, ts', rfl⟩ : ∃ t0 ts', ts = t0 :: ts' := by
      cases ts with
      | nil => exact absurd rfl hts
      | cons a t => exact ⟨a, t, rfl⟩
    cases m with
    | none =>
      have hws : ∀ w ∈ (nm.data :: (t0 :: ts').map String.data), w ≠ [] ∧
          (∀ c ∈ w, isWs c = false) ∧ upperStr w ≠ "DEFAULT".data := by
        intro w hw
        rcases List.mem_cons.mp hw with hw | hw
        · exact hw ▸ ⟨hnm1, hnm2, hnm3⟩
        · obtain ⟨t, htmem, rfl⟩ := List.mem_map.mp hw
          exact htok t htmem
      have hclean : wordsOf (stripDefaultClause
          (renderParam none (some nm) (t0 :: ts') dflt).data) =
          nm.data :: (t0 :: ts').map String.data := by
        have h0 := render_clean_words (nm.data :: (t0 :: ts').map String.data) dflt hws hd
        cases dflt with
        | none => simpa [renderParam] using h0
        | some e => simpa [renderParam] using h0
      rw [psp_eval_name _ nm.data t0.data (ts'.map String.data)
        (by simpa using hclean) hin hout hinout]
      simp
    | some mo =>
      obtain ⟨⟨hmo1, hmo2, hmo3⟩, hmkw⟩ := hm mo rfl
      have hws : ∀ w ∈ (mo.data :: nm.data :: (t0 :: ts').map String.data), w ≠ [] ∧
          (∀ c ∈ w, isWs c = false) ∧ upperStr w ≠ "DEFAULT".data := by
        intro w hw
        rcases List.mem_cons.mp hw with hw | hw
        · exact hw ▸ ⟨hmo1, hmo2, hmo3⟩
        rcases List.mem_cons.mp hw with hw | hw
        · exact hw ▸ ⟨hnm1, hnm2, hnm3⟩
        · obtain ⟨t, htmem, rfl⟩ := List.mem_map.mp hw
          exact htok t htmem
      have hclean : wordsOf (stripDefaultClause
          (renderParam (some mo) (some nm) (t0 :: ts') dflt).data) =
          mo.data :: nm.data :: (t0 :: ts').map String.data := by
        have h0 := render_clean_words
          (mo.data :: nm.data :: (t0 :: ts').map String.data) dflt hws hd
        cases dflt with
        | none => simpa [renderParam] using h0
        | some e => simpa [renderParam] using h0
      rw [psp_eval_mode _ mo.data nm.data t0.data (ts'.map String.data)
        (by simpa using hclean) hmkw]
      simp

/-- Witness for claim C8: the conjuncts applied at a concrete signature
pair and at the rendered parameter IN p_id INT DEFAULT 5. -/
theorem drop_signature_type_only_witness :
    (⟨"f", [⟨some "a", "INT", false⟩], "INT", "x"⟩ :
        FunctionSignature).drop_signature =
      (⟨"f", [⟨some "b", "INT", true⟩], "INT", "y"⟩ :
        FunctionSignature).drop_signature ∧
    Option.map (fun q => q.data_type)
        (parse_single_parameter (renderParam (some "IN") (some "p_id") ["INT"]
          (some "5"))) =
      some ⟨upperStr (unwordsSp (["INT"].map String.data))⟩ := by
  constructor
  · exact drop_signature_type_only.1
      ⟨"f", [⟨some "a", "INT", false⟩], "INT", "x"⟩
      ⟨"f", [⟨some "b", "INT", true⟩], "INT", "y"⟩ rfl (by decide)
  · exact drop_signature_type_only.2 (some "IN") "p_id" ["INT"] (some "5")
      (by intro x hx; cases hx; exact ⟨⟨by decide, by decide, by decide⟩, by decide⟩)
      (by decide) (by decide) (by decide) (by decide) (by decide) (by decide)
      (by decide) (by intro t ht; simp at ht; subst ht; exact ⟨by decide, by decide, by decide⟩)
      (by intro e he; cases he; decide)

/-- Witness for claim C10 at a concrete seeder record. -/
theorem parse_values_record_lengths_witness :
    (⟨["id", "name"], ["1", "2"]⟩ : SeederRecord) ∈
      parse_values ["id", "name"] "(1, 2), (7), (3, 4)" ∧
    (["1", "2"] : List String).length = (["id", "name"] : List String).length := by
  refine ⟨by decide, ?_⟩
  exact (parse_values_record_lengths.1 ["id", "name"] "(1, 2), (7), (3, 4)"
    ⟨["id", "name"], ["1", "2"]⟩ (by decide)).1

/-- Membership in an ordered insertion. -/
theorem mem_insertDesc {α : Type} (le : α → α → Bool) (x y : α) :
    ∀ q : List α, (y ∈ insertDesc le x q ↔ y = x ∨ y ∈ q) := by
  intro q
  induction q with
  | nil => simp [insertDesc]
  | cons a r ih =>
    show y ∈ (if le x a = true then a :: insertDesc le x r else x :: a :: r) ↔ _
    by_cases h : le x a = true
    · rw [if_pos h]
      simp only [List.mem_cons, ih]
      tauto
    · rw [if_neg h]
      simp only [List.mem_cons]

/-- Ordered insertion of a fresh element keeps the queue duplicate
free. -/
theorem nodup_insertDesc {α : Type} (le : α → α → Bool) (x : α) :
    ∀ q : List α, x ∉ q → q.Nodup → (insertDesc le x q).Nodup := by
  intro q
  induction q with
  | nil => intro _ _; simp [insertDesc]
  | cons a r ih =>
    intro hx hq
    show (if le x a = true then a :: insertDesc le x r else x :: a :: r).Nodup
    by_cases h : le x a = true
    · rw [if_pos h]
      rcases List.nodup_cons.mp hq with ⟨har, hr⟩
      refine List.nodup_cons.mpr ⟨?_, ih (fun hm => hx (List.mem_cons_of_mem a hm)) hr⟩
      intro hmem
      rcases (mem_insertDesc le x a r).mp hmem with h1 | h1
      · exact hx (h1 ▸ List.mem_cons_self a r)
      · exact har h1
    · rw [if_neg h]
      exact List.nodup_cons.mpr ⟨hx, hq⟩

/-- Membership in a fold of ordered insertions. -/
theorem mem_foldl_insertDesc {α : Type} (le : α → α → Bool) (y : α) :
    ∀ (l q : List α),
      (y ∈ l.foldl (fun acc x => insertDesc le x acc) q ↔ y ∈ q ∨ y ∈ l) := by
  intro l
  induction l with
  | nil => intro q; simp
  | cons a l' ih =>
    intro q
    show y ∈ l'.foldl (fun acc x => insertDesc le x acc) (insertDesc le a q) ↔ _
    rw [ih (insertDesc le a q)]
    rw [mem_insertDesc]
    simp only [List.mem_cons]
    tauto

/-- A fold of ordered insertions over fresh distinct elements keeps the
queue duplicate free. -/
theorem nodup_foldl_insertDesc {α : Type} (le : α → α → Bool) :
    ∀ (l q : List α), l.Nodup → q.Nodup → (∀ x ∈ l, x ∉ q) →
      (l.foldl (fun acc x => insertDesc le x acc) q).Nodup := by
  intro l
  induction l with
  | nil => intro q _ hq _; exact hq
  | cons a l' ih =>
    intro q hl hq hdisj
    rcases List.nodup_cons.mp hl with ⟨hal, hl'⟩
    show (l'.foldl (fun acc x => insertDesc le x acc) (insertDesc le a q)).Nodup
    refine ih (insertDesc le a q)
      hl' (nodup_insertDesc le a q (hdisj a (List.mem_cons_self a l')) hq) ?_
    intro x hx hmem
    rcases (mem_insertDesc le a x q).mp hmem with h1 | h1
    · exact hal (h1 ▸ hx)
    · exact hdisj x (List.mem_cons_of_mem a hx) h1

/-- Occurrence count in the reverse adjacency list: a known node appears
in the dependents of x once per occurrence of x in its dependencies;
unknown values never appear. -/
theorem count_adjOf {α : Type} [DecidableEq α] (deps : α → List α) (x y : α) :
    ∀ nodes : List α, nodes.Nodup →
      (adjOf nodes deps x).count y =
        if y ∈ nodes then (deps y).count x else 0 := by
  intro nodes
  induction nodes with
  | nil => intro _; simp [adjOf]
  | cons n ns ih =>
    intro hnd
    rcases List.nodup_cons.mp hnd with ⟨hn, hns⟩
    show (List.replicate ((deps n).count x) n ++ adjOf ns deps x).count y = _
    rw [List.count_append, List.count_replicate, ih hns]
    by_cases hyn : y = n
    · subst hyn
      simp [hn]
    · have : (n == y) = false := beq_eq_false_iff_ne.mpr (fun h => hyn h.symm)
      simp only [this, Bool.false_eq_true, if_false, Nat.zero_add]
      by_cases hmem : y ∈ ns
      · simp [hmem, List.mem_cons, hyn]
      · simp [hmem, List.mem_cons, hyn]

/-- Members of the reverse adjacency list are known nodes. -/
theorem mem_adjOf {α : Type} [DecidableEq α] (nodes : List α) (deps : α → List α)
    (x y : α) (h : y ∈ adjOf nodes deps x) : y ∈ nodes := by
  rcases List.mem_flatMap.mp h with ⟨z, hz, hrep⟩
  exact (List.eq_of_mem_replicate hrep) ▸ hz

/-- Effect of emitting one fresh node on the pending-dependency count:
the occurrences of the node are subtracted, and they never exceed the
pending count. -/
theorem countP_emit {α : Type} [DecidableEq α] (E : List α) (t : α) (ht : t ∉ E) :
    ∀ l : List α,
      l.countP (fun r => decide (r ∉ E ++ [t])) =
        l.countP (fun r => decide (r ∉ E)) - l.count t ∧
      l.count t ≤ l.countP (fun r => decide (r ∉ E)) := by
  intro l
  induction l with
  | nil => simp
  | cons r l' ih =>
    rcases ih with ⟨ih1, ih2⟩
    by_cases hrt : r = t
    · subst hrt
      have h1 : decide (r ∉ E ++ [r]) = false := by simp
      have h2 : decide (r ∉ E) = true := by simp [ht]
      simp only [List.countP_cons, List.count_cons_self, h1, h2, Bool.false_eq_true,
        if_false, if_true]
      omega
    · have hc : l'.count t = (r :: l').count t := (List.count_cons_of_ne
        (fun he => hrt he.symm) l').symm
      by_cases hrE : r ∈ E
      · have h1 : decide (r ∉ E ++ [t]) = false := by
          simp [List.mem_append, hrE]
        have h2 : decide (r ∉ E) = false := by simp [hrE]
        simp only [List.countP_cons, h1, h2, Bool.false_eq_true, if_false]
        rw [← hc]
        omega
      · have h1 : decide (r ∉ E ++ [t]) = true := by
          simp [List.mem_append, hrE, hrt]
        have h2 : decide (r ∉ E) = true := by simp [hrE]
        simp only [List.countP_cons, h1, h2, if_true]
        rw [← hc]
        omega

/-- Complete description of one dependent-processing pass: final degrees
subtract the occurrence counts, the queue stays duplicate free, queued
nodes have degree zero, and the queue gains exactly the processed nodes
whose degree reaches zero. -/
theorem procDeps_spec {α : Type} [DecidableEq α] (le : α → α → Bool) :
    ∀ (l q : List α) (d : α → Nat),
      (∀ y, l.count y ≤ d y) →
      (∀ x ∈ q, d x = 0) →
      q.Nodup →
      (∀ y, (procDeps le l q d).2 y = d y - l.count y) ∧
      (procDeps le l q d).1.Nodup ∧
      (∀ x ∈ (procDeps le l q d).1, (procDeps le l q d).2 x = 0) ∧
      (∀ x, x ∈ (procDeps le l q d).1 ↔
        x ∈ q ∨ (x ∈ l ∧ d x - l.count x = 0)) := by
  intro l
  induction l with
  | nil =>
    intro q d _ hq0 hqn
    exact ⟨fun y => by simp [procDeps], hqn, hq0, fun x => by simp [procDeps]⟩
  | cons x rest ih =>
    intro q d hcount hq0 hqn
    have hcx : (x :: rest).count x = rest.count x + 1 := List.count_cons_self x rest
    have hx1 : 1 ≤ d x := le_trans (by rw [hcx]; omega) (hcount x)
    have hxq : x ∉ q := fun hmem => by
      have := hq0 x hmem
      omega
    have heq : procDeps le (x :: rest) q d =
        if d x - 1 = 0 then
          procDeps le rest (insertDesc le x q) (fun y => if y = x then d x - 1 else d y)
        else procDeps le rest q (fun y => if y = x then d x - 1 else d y) := rfl
    by_cases hdx : d x - 1 = 0
    · have hdx1 : d x = 1 := by omega
      have hcr : rest.count x = 0 := by
        have := hcount x
        rw [hcx] at this
        omega
      have hcount2 : ∀ y, rest.count y ≤ (fun y => if y = x then d x - 1 else d y) y := by
        intro y
        by_cases hyx : y = x
        · subst hyx
          simp [hcr]
        · have hcy := List.count_cons_of_ne hyx rest
          have h := hcount y
          rw [hcy] at h
          simpa [hyx] using h
      have hq02 : ∀ z ∈ insertDesc le x q,
          (fun y => if y = x then d x - 1 else d y) z = 0 := by
        intro z hz
        rcases (mem_insertDesc le x z q).mp hz with hz1 | hz1
        · simp [hz1, hdx]
        · have hzx : z ≠ x := fun h => hxq (h ▸ hz1)
          simpa [hzx] using hq0 z hz1
      have hqn2 := nodup_insertDesc le x q hxq hqn
      obtain ⟨pa, pb, pc, pd⟩ := ih (insertDesc le x q)
        (fun y => if y = x then d x - 1 else d y) hcount2 hq02 hqn2
      rw [heq, if_pos hdx]
      refine ⟨?_, pb, pc, ?_⟩
      · intro y
        by_cases hyx : y = x
        · subst hyx
          rw [pa y, hcx, if_pos rfl, hcr]
          omega
        · have hcy := List.count_cons_of_ne hyx rest
          rw [pa y, hcy, if_neg hyx]
      · intro z
        rw [pd z, mem_insertDesc]
        by_cases hzx : z = x
        · subst hzx
          constructor
          · intro _
            refine Or.inr ⟨List.mem_cons_self z rest, ?_⟩
            rw [hcx, hcr]
            omega
          · intro _
            exact Or.inl (Or.inl rfl)
        · have hcy := List.count_cons_of_ne hzx rest
          rw [if_neg hzx, hcy]
          simp [hzx, List.mem_cons]
    · have hdx2 : 2 ≤ d x := by omega
      have hcount2 : ∀ y, rest.count y ≤ (fun y => if y = x then d x - 1 else d y) y := by
        intro y
        by_cases hyx : y = x
        · subst hyx
          have h := hcount y
          rw [hcx] at h
          show rest.count y ≤ if y = y then d y - 1 else d y
          rw [if_pos rfl]
          omega
        · have hcy := List.count_cons_of_ne hyx rest
          have h := hcount y
          rw [hcy] at h
          show rest.count y ≤ if y = x then d x - 1 else d y
          rw [if_neg hyx]
          exact h
      have hq02 : ∀ z ∈ q, (fun y => if y = x then d x - 1 else d y) z = 0 := by
        intro z hz
        have hzx : z ≠ x := fun h => hxq (h ▸ hz)
        simpa [hzx] using hq0 z hz
      obtain ⟨pa, pb, pc, pd⟩ := ih q
        (fun y => if y = x then d x - 1 else d y) hcount2 hq02 hqn
      rw [heq, if_neg hdx]
      refine ⟨?_, pb, pc, ?_⟩
      · intro y
        by_cases hyx : y = x
        · subst hyx
          rw [pa y, hcx, if_pos rfl]
          omega
        · have hcy := List.count_cons_of_ne hyx rest
          rw [pa y, hcy, if_neg hyx]
      · intro z
        rw [pd z]
        by_cases hzx : z = x
        · subst hzx
          rw [if_pos rfl, hcx]
          constructor
          · rintro (hq | ⟨hmem, hval⟩)
            · exact absurd (hq0 z hq) (by omega)
            · exact Or.inr ⟨List.mem_cons_self z rest, by omega⟩
          · rintro (hq | ⟨_, hval⟩)
            · exact absurd (hq0 z hq) (by omega)
            · refine Or.inr ⟨List.count_pos_iff.mp (by omega), by omega⟩
        · have hcy := List.count_cons_of_ne hzx rest
          rw [if_neg hzx, hcy]
          simp [hzx, List.mem_cons]

/-- One Kahn iteration preserves the loop invariant: the head of the
queue is emitted and its dependents are processed. -/
theorem kahn_step {α : Type} [DecidableEq α] (le : α → α → Bool)
    (nodes : List α) (deps : α → List α) (hnd : nodes.Nodup)
    (E q' : List α) (t : α) (d : α → Nat)
    (hinv : KahnInv nodes deps ⟨E, t :: q', d⟩) :
    KahnInv nodes deps ⟨E ++ [t],
      (procDeps le (adjOf nodes deps t) q' d).1,
      (procDeps le (adjOf nodes deps t) q' d).2⟩ := by
  simp only [KahnInv] at hinv ⊢
  obtain ⟨h1, h2, h3, h4, h5, h6, h7, h8, h9⟩ := hinv
  have htn : t ∈ nodes := (h4 t (List.mem_cons_self t q')).1
  have htE : t ∉ E := (h4 t (List.mem_cons_self t q')).2
  have htd : d t = 0 := h6 t (List.mem_cons_self t q')
  have hq'n : q'.Nodup := (List.nodup_cons.mp h3).2
  have htq' : t ∉ q' := (List.nodup_cons.mp h3).1
  have hcnt : ∀ y, (adjOf nodes deps t).count y ≤ d y := by
    intro y
    by_cases hy : y ∈ nodes
    · rw [count_adjOf deps t y nodes hnd, if_pos hy, h5 y hy]
      exact (countP_emit E t htE (deps y)).2
    · rw [count_adjOf deps t y nodes hnd, if_neg hy]
      exact Nat.zero_le _
  obtain ⟨pa, pb, pc, pd⟩ := procDeps_spec le (adjOf nodes deps t) q' d hcnt
    (fun x hx => h6 x (List.mem_cons_of_mem t hx)) hq'n
  have hdeg : ∀ y ∈ nodes, (procDeps le (adjOf nodes deps t) q' d).2 y =
      (deps y).countP (fun r => decide (r ∉ E ++ [t])) := by
    intro y hy
    rw [pa y, count_adjOf deps t y nodes hnd, if_pos hy, h5 y hy,
      (countP_emit E t htE (deps y)).1]
  refine ⟨?_, ?_, pb, ?_, hdeg, pc, ?_, ?_, ?_⟩
  · exact h1.append (List.nodup_singleton t)
      (fun a ha hat => htE (List.mem_singleton.mp hat ▸ ha))
  · intro x hx
    rcases List.mem_append.mp hx with hm | hm
    · exact h2 x hm
    · exact (List.mem_singleton.mp hm) ▸ htn
  · intro x hx
    rcases (pd x).mp hx with hxq | ⟨hxa, _⟩
    · have hx4 := h4 x (List.mem_cons_of_mem t hxq)
      refine ⟨hx4.1, ?_⟩
      intro hmem
      rcases List.mem_append.mp hmem with hm | hm
      · exact hx4.2 hm
      · exact htq' ((List.mem_singleton.mp hm) ▸ hxq)
    · have hxn := mem_adjOf nodes deps t x hxa
      have hcp : 0 < (adjOf nodes deps t).count x := List.count_pos_iff.mpr hxa
      refine ⟨hxn, ?_⟩
      intro hmem
      rcases List.mem_append.mp hmem with hm | hm
      · have hd0 := h7 x hm
        have hle := hcnt x
        omega
      · have hxt := List.mem_singleton.mp hm
        rw [hxt] at hcp
        have hle := hcnt t
        omega
  · intro x hx
    have hdx : d x = 0 := by
      rcases List.mem_append.mp hx with hm | hm
      · exact h7 x hm
      · rw [List.mem_singleton.mp hm]
        exact htd
    rw [pa x, hdx]
    simp
  · intro y hy hdeg0
    rw [pa y] at hdeg0
    by_cases hdy : d y = 0
    · rcases h8 y hy hdy with hm | hm
      · exact Or.inl (List.mem_append_left _ hm)
      · rcases List.mem_cons.mp hm with hm1 | hm1
        · refine Or.inl (List.mem_append_right _ ?_)
          rw [hm1]
          exact List.mem_singleton_self t
        · exact Or.inr ((pd y).mpr (Or.inl hm1))
    · have hmem : y ∈ adjOf nodes deps t := by
        have hle := hcnt y
        exact List.count_pos_iff.mp (by omega)
      exact Or.inr ((pd y).mpr (Or.inr ⟨hmem, hdeg0⟩))
  · intro k y hk r hr
    rcases Nat.lt_trichotomy k E.length with hlt | heqk | hgt
    · rw [List.get?_append hlt] at hk
      have hr' := h9 k y hk r hr
      rw [List.take_append_of_le_length (le_of_lt hlt)]
      exact hr'
    · subst heqk
      have hyt : y = t := by
        rw [List.get?_append_right (le_refl E.length)] at hk
        simp at hk
        exact hk.symm
      have hcp0 : (deps t).countP (fun r => decide (r ∉ E)) = 0 := by
        rw [← h5 t htn, htd]
      have hrE : r ∈ E := by
        have hnp := List.countP_eq_zero.mp hcp0 r (hyt ▸ hr)
        simpa using hnp
      rw [List.take_left]
      exact hrE
    · have hnone : (E ++ [t]).get? k = none := by
        rw [List.get?_eq_none]
        simp only [List.length_append, List.length_singleton]
        omega
      rw [hnone] at hk
      exact Option.noConfusion hk

/-- Fuelled-loop specification: with enough fuel the run preserves the
invariant and drains the queue. -/
theorem kahnRun_spec {α : Type} [DecidableEq α] (le : α → α → Bool)
    (nodes : List α) (deps : α → List α) (hnd : nodes.Nodup) :
    ∀ (fuel : Nat) (s : KahnState α), KahnInv nodes deps s →
      nodes.length + 1 ≤ fuel + s.emitted.length →
      KahnInv nodes deps (kahnRun le (adjOf nodes deps) fuel s) ∧
        (kahnRun le (adjOf nodes deps) fuel s).queue = [] := by
  intro fuel
  induction fuel with
  | zero =>
    intro s hinv hfuel
    exfalso
    simp only [KahnInv] at hinv
    obtain ⟨h1, h2, _⟩ := hinv
    have hsub := (h1.subperm (fun x hx => h2 x hx)).length_le
    omega
  | succ fuel ih =>
    intro s hinv hfuel
    obtain ⟨E, Q, d⟩ := s
    cases Q with
    | nil => exact ⟨hinv, rfl⟩
    | cons t q' =>
      have hstep := kahn_step le nodes deps hnd E q' t d hinv
      have hrun : kahnRun le (adjOf nodes deps) (fuel + 1) ⟨E, t :: q', d⟩ =
          kahnRun le (adjOf nodes deps) fuel ⟨E ++ [t],
            (procDeps le (adjOf nodes deps t) q' d).1,
            (procDeps le (adjOf nodes deps t) q' d).2⟩ := rfl
      rw [hrun]
      refine ih _ hstep ?_
      simp only [List.length_append, List.length_singleton]
      simp only [] at hfuel
      omega

/-- Completeness of a drained Kahn state: when some rank decreases along
every dependency edge, every node has been emitted. -/
theorem kahn_complete {α : Type} [DecidableEq α]
    (nodes : List α) (deps : α → List α) (rank : α → Nat)
    (hclosed : ∀ y ∈ nodes, ∀ r ∈ deps y, r ∈ nodes)
    (hrank : ∀ y ∈ nodes, ∀ r ∈ deps y, rank r < rank y)
    (E : List α) (dg : α → Nat)
    (hf5 : ∀ y ∈ nodes, dg y = (deps y).countP (fun r => decide (r ∉ E)))
    (hf8 : ∀ y ∈ nodes, dg y = 0 → y ∈ E) :
    ∀ y ∈ nodes, y ∈ E := by
  intro y hy
  have main : ∀ n, ∀ z ∈ nodes, rank z = n → z ∈ E := by
    intro n
    induction n using Nat.strong_induction_on with
    | _ n ihn =>
      intro z hz hzr
      have hdz : dg z = 0 := by
        rw [hf5 z hz]
        refine List.countP_eq_zero.mpr ?_
        intro a ha
        have haE : a ∈ E := ihn (rank a) (hzr ▸ hrank z hz a ha) a (hclosed z hz a ha) rfl
        simp [haE]
      exact hf8 z hz hdz
  exact main (rank y) y hy rfl

/-- Full specification of the shared Kahn sort: under a rank function
that decreases along dependency edges, the output is a duplicate-free
enumeration of exactly the node set in which every node appears after
all of its dependencies. -/
theorem kahn_spec {α : Type} [DecidableEq α] (le : α → α → Bool)
    (nodes : List α) (deps : α → List α) (hnd : nodes.Nodup)
    (hclosed : ∀ y ∈ nodes, ∀ r ∈ deps y, r ∈ nodes)
    (rank : α → Nat) (hrank : ∀ y ∈ nodes, ∀ r ∈ deps y, rank r < rank y) :
    (kahn le nodes deps).Nodup ∧
    (∀ x ∈ kahn le nodes deps, x ∈ nodes) ∧
    (∀ y ∈ nodes, y ∈ kahn le nodes deps) ∧
    (∀ k y, (kahn le nodes deps).get? k = some y →
      ∀ r ∈ deps y, r ∈ (kahn le nodes deps).take k) := by
  have hkeq : kahn le nodes deps = (kahnRun le (adjOf nodes deps) (nodes.length + 1)
      ⟨[], (nodes.filter fun x => (deps x).length == 0).foldl
        (fun q x => insertDesc le x q) [], fun x => (deps x).length⟩).emitted := rfl
  have hinv0 : KahnInv nodes deps
      ⟨[], (nodes.filter fun x => (deps x).length == 0).foldl
        (fun q x => insertDesc le x q) [], fun x => (deps x).length⟩ := by
    simp only [KahnInv]
    refine ⟨List.nodup_nil, ?_, ?_, ?_, ?_, ?_, ?_, ?_, ?_⟩
    · intro x hx
      exact absurd hx (List.not_mem_nil x)
    · refine nodup_foldl_insertDesc le _ [] (List.Nodup.filter _ hnd) List.nodup_nil ?_
      intro x _ hmem
      exact absurd hmem (List.not_mem_nil x)
    · intro x hx
      rcases (mem_foldl_insertDesc le x _ []).mp hx with hx' | hx'
      · exact absurd hx' (List.not_mem_nil x)
      · exact ⟨(List.mem_filter.mp hx').1, List.not_mem_nil x⟩
    · intro y hy
      exact (List.countP_eq_length.mpr (fun a _ => by simp)).symm
    · intro x hx
      rcases (mem_foldl_insertDesc le x _ []).mp hx with hx' | hx'
      · exact absurd hx' (List.not_mem_nil x)
      · simpa using (List.mem_filter.mp hx').2
    · intro x hx
      exact absurd hx (List.not_mem_nil x)
    · intro y hy h0
      refine Or.inr ((mem_foldl_insertDesc le y _ []).mpr (Or.inr ?_))
      exact List.mem_filter.mpr ⟨hy, by simpa using h0⟩
    · intro k y hk
      exact Option.noConfusion hk
  obtain ⟨hfin, hq⟩ := kahnRun_spec le nodes deps hnd (nodes.length + 1) _ hinv0 (by simp)
  simp only [KahnInv] at hfin
  obtain ⟨f1, f2, _, _, f5, _, _, f8, f9⟩ := hfin
  rw [hkeq]
  refine ⟨f1, f2, ?_, f9⟩
  refine kahn_complete nodes deps rank hclosed hrank _ _ f5 ?_
  intro y hy hdy
  rcases f8 y hy hdy with hm | hm
  · exact hm
  · rw [hq] at hm
    exact absurd hm (List.not_mem_nil y)

/-- A successful association-list lookup returns a stored pair. -/
theorem lookup_mem {α β : Type} [BEq α] [LawfulBEq α] :
    ∀ (g : List (α × β)) (a : α) (b : β), g.lookup a = some b → (a, b) ∈ g := by
  intro g
  induction g with
  | nil =>
    intro a b h
    exact Option.noConfusion h
  | cons p g' ih =>
    intro a b h
    obtain ⟨k, v⟩ := p
    rw [List.lookup_cons] at h
    by_cases hak : (a == k) = true
    · simp only [hak] at h
      have hav := Option.some.inj h
      have hk : a = k := eq_of_beq hak
      rw [hk, ← hav]
      exact List.mem_cons_self _ _
    · simp only [Bool.not_eq_true] at hak
      simp only [hak] at h
      exact List.mem_cons_of_mem _ (ih a b h)

/-- Dependencies of the analyzer graph stay inside the collected node
set. -/
theorem graphDeps_closed (graph : List (String × List String)) :
    ∀ y ∈ graphNodes graph, ∀ r ∈ graphDeps graph y, r ∈ graphNodes graph := by
  intro y _ r hr
  simp only [graphDeps] at hr
  cases hl : graph.lookup y with
  | none =>
    rw [hl] at hr
    exact absurd hr (List.not_mem_nil r)
  | some l =>
    rw [hl] at hr
    refine List.mem_dedup.mpr ?_
    exact List.mem_flatMap.mpr ⟨(y, l), lookup_mem graph y l hl, List.mem_cons_of_mem _ hr⟩

/-- A rank decreasing along the stored adjacency lists decreases along
the looked-up dependency function. -/
theorem graphDeps_rank (graph : List (String × List String)) (rank : String → Nat)
    (h : ∀ p ∈ graph, ∀ r ∈ p.2, rank r < rank p.1) :
    ∀ y ∈ graphNodes graph, ∀ r ∈ graphDeps graph y, rank r < rank y := by
  intro y _ r hr
  simp only [graphDeps] at hr
  cases hl : graph.lookup y with
  | none =>
    rw [hl] at hr
    exact absurd hr (List.not_mem_nil r)
  | some l =>
    rw [hl] at hr
    exact h (y, l) (lookup_mem graph y l hl) r hr

/-- Indices produced by the name map are valid positions. -/
theorem nameToIdx_lt (names : List String) (s : String) (j : Nat)
    (h : nameToIdx names s = some j) : j < names.length := by
  simp only [nameToIdx] at h
  have hmem := List.mem_of_mem_getLast? h
  rcases List.mem_map.mp hmem with ⟨p, hp, hpj⟩
  obtain ⟨i, x⟩ := p
  have hpe : (i, x) ∈ names.enum := List.mem_of_mem_filter hp
  rw [List.enum_eq_zip_range] at hpe
  have hir := (List.of_mem_zip hpe).1
  rw [List.mem_range] at hir
  have hij : i = j := hpj
  rw [← hij]
  exact hir

/-- Resolved dependency indices of the table deployer stay inside the
index range. -/
theorem depsIdx_closed (tables : List TableDefinition) :
    ∀ i ∈ List.range tables.length, ∀ j ∈ depsIdx tables i,
      j ∈ List.range tables.length := by
  intro i _ j hj
  simp only [depsIdx] at hj
  cases hg : tables.get? i with
  | none =>
    rw [hg] at hj
    exact absurd hj (List.not_mem_nil j)
  | some t =>
    rw [hg] at hj
    have hj1 := List.mem_of_mem_filter hj
    rcases List.mem_filterMap.mp hj1 with ⟨s, _, hns⟩
    have hlt := nameToIdx_lt (tableNames tables) s j hns
    rw [List.mem_range]
    simpa [tableNames] using hlt

/-- Membership in a take bounds the index of first occurrence. -/
theorem indexOf_lt_of_mem_take {α : Type} [DecidableEq α] :
    ∀ (l : List α) (k : Nat) (x : α), x ∈ l.take k → l.indexOf x < k := by
  intro l
  induction l with
  | nil =>
    intro k x hx
    rw [List.take_nil] at hx
    exact absurd hx (List.not_mem_nil x)
  | cons a l' ih =>
    intro k x hx
    cases k with
    | zero =>
      rw [List.take_zero] at hx
      exact absurd hx (List.not_mem_nil x)
    | succ k' =>
      rw [List.take_succ_cons] at hx
      by_cases hxa : x = a
      · rw [hxa, List.indexOf_cons_self]
        omega
      · rcases List.mem_cons.mp hx with h1 | h1
        · exact absurd h1 hxa
        · rw [List.indexOf_cons_ne _ (fun h => hxa h.symm)]
          have := ih k' x h1
          omega

/-- In a duplicate-free list the index of the element at a position is
that position. -/
theorem indexOf_of_get? {α : Type} [DecidableEq α] :
    ∀ (l : List α) (k : Nat) (y : α), l.Nodup → l.get? k = some y →
      l.indexOf y = k := by
  intro l
  induction l with
  | nil =>
    intro k y _ h
    exact Option.noConfusion h
  | cons a l' ih =>
    intro k y hnd hk
    cases k with
    | zero =>
      rw [List.get?_cons_zero] at hk
      have := Option.some.inj hk
      rw [← this, List.indexOf_cons_self]
    | succ k' =>
      rw [List.get?_cons_succ] at hk
      have hyl : y ∈ l' := List.get?_mem hk
      have hya : a ≠ y := fun h => (List.nodup_cons.mp hnd).1 (h ▸ hyl)
      rw [List.indexOf_cons_ne _ hya, ih k' y (List.nodup_cons.mp hnd).2 hk]

/-- Packaged order properties of the Kahn sort under a decreasing
rank: a duplicate-free cover of the node set in which every dependency
precedes its dependent. -/
theorem kahn_order_props {α : Type} [DecidableEq α] (le : α → α → Bool)
    (nodes : List α) (deps : α → List α) (hnd : nodes.Nodup)
    (hclosed : ∀ y ∈ nodes, ∀ r ∈ deps y, r ∈ nodes)
    (rank : α → Nat) (hrank : ∀ y ∈ nodes, ∀ r ∈ deps y, rank r < rank y) :
    (kahn le nodes deps).Nodup ∧
    (∀ x ∈ kahn le nodes deps, x ∈ nodes) ∧
    (∀ y ∈ nodes, y ∈ kahn le nodes deps) ∧
    (kahn le nodes deps).length = nodes.length ∧
    (∀ y ∈ kahn le nodes deps, ∀ r ∈ deps y,
      r ∈ kahn le nodes deps ∧
        (kahn le nodes deps).indexOf r < (kahn le nodes deps).indexOf y) := by
  obtain ⟨k1, k2, k3, k4⟩ := kahn_spec le nodes deps hnd hclosed rank hrank
  refine ⟨k1, k2, k3, ?_, ?_⟩
  · have h1 := (k1.subperm (fun x hx => k2 x hx)).length_le
    have h2 := (hnd.subperm (fun x hx => k3 x hx)).length_le
    omega
  · intro y hy r hr
    rcases List.mem_iff_get?.mp hy with ⟨k, hk⟩
    have htk := k4 k y hk r hr
    refine ⟨List.mem_of_mem_take htk, ?_⟩
    rw [indexOf_of_get? _ k y k1 hk]
    exact indexOf_lt_of_mem_take _ k r htk

/-- C6: when the foreign-key graph has no cycles — witnessed by a rank
that strictly decreases along every dependency edge — both sorters
succeed, and each creation order places every referenced table before
each table that references it.  The analyzer emits an order over its
node set with every dependency at a smaller index than its dependent;
the deployer returns the definitions of a duplicate-free index order
covering all tables in which every resolved dependency index precedes
its dependent. -/
theorem creation_order_respects_dependencies :
    (∀ graph : List (String × List String),
      (∃ rank : String → Nat, ∀ p ∈ graph, ∀ r ∈ p.2, rank r < rank p.1) →
      ∃ order, topological_sort graph = .ok order ∧
        ∀ y ∈ order, ∀ r ∈ graphDeps graph y,
          r ∈ order ∧ order.indexOf r < order.indexOf y) ∧
    (∀ tables : List TableDefinition,
      (∃ rank : Nat → Nat, ∀ i ∈ List.range tables.length,
        ∀ j ∈ depsIdx tables i, rank j < rank i) →
      ∃ idx : List Nat,
        order_by_dependencies tables = .ok (idx.filterMap tables.get?) ∧
        idx.Nodup ∧ (∀ i, i ∈ idx ↔ i < tables.length) ∧
        ∀ i ∈ idx, ∀ j ∈ depsIdx tables i,
          j ∈ idx ∧ idx.indexOf j < idx.indexOf i) := by
  constructor
  · rintro graph ⟨rank, hrank⟩
    have hnd : (graphNodes graph).Nodup := List.nodup_dedup _
    obtain ⟨k1, k2, k3, hlen, hord⟩ := kahn_order_props (fun a b => decide (a ≤ b))
      (graphNodes graph) (graphDeps graph) hnd (graphDeps_closed graph)
      rank (graphDeps_rank graph rank hrank)
    refine ⟨kahn (fun a b => decide (a ≤ b)) (graphNodes graph) (graphDeps graph),
      ?_, ?_⟩
    · simp only [topological_sort]
      rw [if_pos hlen]
    · exact hord
  · rintro tables ⟨rank, hrank⟩
    by_cases hempty : tables.isEmpty = true
    · have hnil : tables = [] := List.isEmpty_iff.mp hempty
      refine ⟨[], ?_, List.nodup_nil, ?_, ?_⟩
      · rw [hnil]
        rfl
      · intro i
        constructor
        · intro h
          exact absurd h (List.not_mem_nil i)
        · intro h
          rw [hnil] at h
          simp at h
      · intro i hi
        exact absurd hi (List.not_mem_nil i)
    · obtain ⟨k1, k2, k3, hlen, hord⟩ := kahn_order_props (tblLe tables)
        (List.range tables.length) (depsIdx tables) (List.nodup_range _)
        (depsIdx_closed tables) rank hrank
      have hlen' : (kahn (tblLe tables) (List.range tables.length)
          (depsIdx tables)).length = tables.length := by
        rw [hlen, List.length_range]
      refine ⟨kahn (tblLe tables) (List.range tables.length) (depsIdx tables),
        ?_, k1, ?_, ?_⟩
      · simp only [order_by_dependencies]
        rw [if_neg hempty, if_pos hlen']
      · intro i
        constructor
        · intro h
          exact List.mem_range.mp (k2 i h)
        · intro h
          exact k3 i (List.mem_range.mpr h)
      · exact hord

/-- Witness for claim C6: a two-node graph and a two-table set with one
foreign key each, ranked by dependency depth. -/
theorem creation_order_respects_dependencies_witness :
    (∃ order, topological_sort [("b", ["a"]), ("a", [])] = .ok order ∧
      ∀ y ∈ order, ∀ r ∈ graphDeps [("b", ["a"]), ("a", [])] y,
        r ∈ order ∧ order.indexOf r < order.indexOf y) ∧
    (∃ idx : List Nat,
      order_by_dependencies [⟨"b", "f1", "s1", "c1", ["a"]⟩,
        ⟨"a", "f2", "s2", "c2", []⟩] =
        .ok (idx.filterMap ([⟨"b", "f1", "s1", "c1", ["a"]⟩,
          ⟨"a", "f2", "s2", "c2", []⟩] : List TableDefinition).get?) ∧
      idx.Nodup ∧ (∀ i, i ∈ idx ↔ i < 2) ∧
      ∀ i ∈ idx, ∀ j ∈ depsIdx [⟨"b", "f1", "s1", "c1", ["a"]⟩,
          ⟨"a", "f2", "s2", "c2", []⟩] i,
        j ∈ idx ∧ idx.indexOf j < idx.indexOf i) :=
  ⟨creation_order_respects_dependencies.1 [("b", ["a"]), ("a", [])]
    ⟨fun s => if s = "a" then 0 else 1, by decide⟩,
  creation_order_respects_dependencies.2
    [⟨"b", "f1", "s1", "c1", ["a"]⟩, ⟨"a", "f2", "s2", "c2", []⟩]
    ⟨fun i => if i = 1 then 0 else 1, by decide⟩⟩

end SSDB
